import Mathlib

/-!
# whisper_android.cpp : the native bridge of whisper-base-q8-rn

A shallow embedding of `android/app/src/main/cpp/whisper_android.cpp`:

* `F32` : the C++ type `float` (IEEE-754 binary32, round to nearest, ties to
  even), with the operations the source applies to it;
* `WhisperModel` : the class of the same name, its member functions written
  in state-passing style;
* `Java_com_whisperbaseq8rn_WhisperModule.loadModel`, `.transcribeAudio` and
  `.releaseModel` : the three exported entry points
  `Java_com_whisperbaseq8rn_WhisperModule_*`, over the global `g_whisperModel`.

Calls to the Android log (`LOGI`, `LOGE`) are left out: they change neither
the state nor a returned value.  The file system enters `loadModel` as a
parameter.  The arithmetic of `float` is that of the C++ abstract machine on
IEEE-754 hardware: every operation rounds once, to nearest, ties to even.
-/

/-! ## binary32 -/

/-- A value of the C++ type `float`: a NaN, an infinity, or the finite value
`(-1)^neg * m * 2^e`.  The results of the operations below are normalised:
`m < 2^24`, `-149 ≤ e ≤ 104`, and `2^23 ≤ m` unless `e = -149`. -/
inductive F32 where
  | nan : F32
  | inf (neg : Bool) : F32
  | fin (neg : Bool) (m : Nat) (e : Int) : F32
  deriving DecidableEq

namespace F32

/-- The literal `0.0f`. -/
def zero : F32 := fin false 0 (-149)

/-- The value `-0.0f`. -/
def negZero : F32 := fin true 0 (-149)

/-- The literal `1.0f`. -/
def one : F32 := fin false 8388608 (-23)

/-- The literal `0.01f` (bit pattern `0x3C23D70A`). -/
def threshold : F32 := fin false 10737418 (-30)

/-- The loop of `bitLen`, bounded by its first argument. -/
def bitLenAux : Nat → Nat → Nat
  | 0, _ => 0
  | fuel + 1, n => if n = 0 then 0 else bitLenAux fuel (n / 2) + 1

/-- The number of bits of `n`: the least `k` with `n < 2^k`. -/
def bitLen (n : Nat) : Nat := bitLenAux n n

/-- Rounding of the exact value `(m + s) * 2^e`, where `0 < s < 1` when
`sticky` is set and `s = 0` otherwise, to the nearest binary32 value, ties
to even.  A set `sticky` requires `2^25 ≤ m`. -/
def roundFin (neg : Bool) (m : Nat) (e : Int) (sticky : Bool) : F32 :=
  if m = 0 then fin neg 0 (-149)
  else
    let eT : Int := max (e + (bitLen m : Nat) - 24) (-149)
    if eT ≤ e then
      if eT > 104 then inf neg else fin neg (m <<< (e - eT).toNat) eT
    else
      let sh : Nat := (eT - e).toNat
      let q : Nat := m >>> sh
      let r : Nat := m % 2 ^ sh
      let half : Nat := 2 ^ (sh - 1)
      let up : Bool := decide (half < r) || (r == half && (sticky || q % 2 == 1))
      let qUp : Nat := if up then q + 1 else q
      let qN : Nat := if qUp = 16777216 then 8388608 else qUp
      let eN : Int := if qUp = 16777216 then eT + 1 else eT
      if eN > 104 then inf neg else fin neg qN eN

/-- The integer `(-1)^neg * m`. -/
def signed (neg : Bool) (m : Nat) : Int :=
  if neg then - (m : Int) else (m : Int)

/-- Addition of two `float`s. -/
def add : F32 → F32 → F32
  | nan, _ => nan
  | _, nan => nan
  | inf a, inf b => if a = b then inf a else nan
  | inf a, fin _ _ _ => inf a
  | fin _ _ _, inf b => inf b
  | fin n1 m1 e1, fin n2 m2 e2 =>
    if m1 = 0 ∧ m2 = 0 then fin (n1 && n2) 0 (-149)
    else
      let e0 : Int := min e1 e2
      let s : Int := signed n1 (m1 <<< (e1 - e0).toNat) + signed n2 (m2 <<< (e2 - e0).toNat)
      if s = 0 then zero else roundFin (decide (s < 0)) s.natAbs e0 false

/-- Multiplication of two `float`s. -/
def mul : F32 → F32 → F32
  | nan, _ => nan
  | _, nan => nan
  | inf a, inf b => inf (xor a b)
  | inf a, fin n m _ => if m = 0 then nan else inf (xor a n)
  | fin n m _, inf b => if m = 0 then nan else inf (xor n b)
  | fin n1 m1 e1, fin n2 m2 e2 => roundFin (xor n1 n2) (m1 * m2) (e1 + e2) false

/-- Division of two `float`s. -/
def div : F32 → F32 → F32
  | nan, _ => nan
  | _, nan => nan
  | inf _, inf _ => nan
  | inf a, fin n _ _ => inf (xor a n)
  | fin n _ _, inf b => fin (xor n b) 0 (-149)
  | fin n1 m1 e1, fin n2 m2 e2 =>
    if m2 = 0 then (if m1 = 0 then nan else inf (xor n1 n2))
    else
      roundFin (xor n1 n2) ((m1 <<< 64) / m2) (e1 - e2 - 64) (decide ((m1 <<< 64) % m2 ≠ 0))

/-- The loop of `natSqrt`: the bits of the root, from bit `b - 1` down. -/
def natSqrtAux : Nat → Nat → Nat → Nat
  | 0, _, r => r
  | b + 1, n, r =>
    if (r + 2 ^ b) * (r + 2 ^ b) ≤ n then natSqrtAux b n (r + 2 ^ b) else natSqrtAux b n r

/-- The integer square root, rounded down. -/
def natSqrt (n : Nat) : Nat := natSqrtAux (bitLen n / 2 + 1) n 0

/-- The correctly rounded square root of a `float`. -/
def sqrt : F32 → F32
  | nan => nan
  | inf neg => if neg then nan else inf false
  | fin neg m e =>
    if m = 0 then fin neg 0 (-149)
    else if neg then nan
    else
      let s : Nat := if (e - 64) % 2 = 0 then 64 else 65
      let root : Nat := natSqrt (m <<< s)
      roundFin false root ((e - s) / 2) (decide (root * root ≠ m <<< s))

/-- The conversion of a `size_t` to `float`. -/
def ofNat (n : Nat) : F32 := roundFin false n 0 false

/-- The comparison `x > y` of two `float`s. -/
def gt : F32 → F32 → Bool
  | nan, _ => false
  | _, nan => false
  | inf a, inf b => !a && b
  | inf a, fin _ _ _ => !a
  | fin _ _ _, inf b => b
  | fin n1 m1 e1, fin n2 m2 e2 =>
    decide (signed n2 (m2 <<< (e2 - min e1 e2).toNat) < signed n1 (m1 <<< (e1 - min e1 e2).toNat))

end F32

/-! ## WhisperModel -/

/-- The string `transcribe` returns for audible input. -/
def placeholder : String := "您好，这是语音识别的测试结果。"

/-- The answer of the file system to `std::ifstream file(path, std::ios::binary)`:
`none` when the file cannot be opened, the size `tellg` reports otherwise. -/
abbrev FileSystem := String → Option Nat

/-- The data members of `class WhisperModel`. -/
structure WhisperModel where
  modelPath : String
  isLoaded : Bool
  audioBuffer : List F32
  deriving DecidableEq

namespace WhisperModel

/-- The constructor `WhisperModel() : isLoaded(false) {}`. -/
def new : WhisperModel := { modelPath := "", isLoaded := false, audioBuffer := [] }

/-- `bool loadModel(const std::string& path)`: the returned flag and the
object afterwards. -/
def loadModel (fs : FileSystem) (self : WhisperModel) (path : String) : Bool × WhisperModel :=
  let self1 : WhisperModel := { self with modelPath := path }
  match fs path with
  | none => (false, self1)
  | some _fileSize => (true, { self1 with isLoaded := true })

/-- The loop `for (float sample : audioData) energy += sample * sample;`. -/
def accumulate : F32 → List F32 → F32
  | energy, [] => energy
  | energy, sample :: rest => accumulate (F32.add energy (F32.mul sample sample)) rest

/-- `std::string transcribe(const std::vector<float>& audioData)`: the
returned string and the object afterwards.  In `energy / audioData.size()` the
`size_t` is converted to `float`; the square root is correctly rounded. -/
def transcribe (self : WhisperModel) (audioData : List F32) : String × WhisperModel :=
  if !self.isLoaded then ("", self)
  else if audioData.isEmpty then ("", self)
  else
    let energy0 : F32 := accumulate F32.zero audioData
    let energy : F32 := F32.sqrt (F32.div energy0 (F32.ofNat audioData.length))
    if F32.gt energy F32.threshold then (placeholder, self) else ("", self)

/-- `void release()`. -/
def release (self : WhisperModel) : WhisperModel :=
  { self with isLoaded := false, audioBuffer := [] }

end WhisperModel

/-! ## The exported entry points -/

/-- What a call of `transcribeAudio` does: it returns a string and leaves a
value in `g_whisperModel`, or its behaviour is undefined. -/
inductive Outcome where
  | returns (result : String) (g : Option WhisperModel) : Outcome
  | undefined : Outcome
  deriving DecidableEq

namespace Java_com_whisperbaseq8rn_WhisperModule

/-- `Java_com_whisperbaseq8rn_WhisperModule_loadModel`, over the value of
`g_whisperModel` before the call: the returned flag and `g_whisperModel`
afterwards. -/
def loadModel (fs : FileSystem) (g_whisperModel : Option WhisperModel) (model_path : String) :
    Bool × Option WhisperModel :=
  let model : WhisperModel := match g_whisperModel with
    | none => WhisperModel.new
    | some m => m
  let result := model.loadModel fs model_path
  (result.1, some result.2)

/-- `Java_com_whisperbaseq8rn_WhisperModule_transcribeAudio`, over the value of
`g_whisperModel` before the call.  `audioArray` is the result of
`GetFloatArrayElements(audio_data, nullptr)`: `none` for `nullptr`, the elements
of the Java array otherwise.  The range constructor
`audioVector(audioArray, audioArray + data_length)` is defined only when
`audioArray + data_length` stays within the array. -/
def transcribeAudio (g_whisperModel : Option WhisperModel) (audioArray : Option (List F32))
    (data_length : Int) : Outcome :=
  match g_whisperModel with
  | none => Outcome.returns "" g_whisperModel
  | some model =>
    match audioArray with
    | none => Outcome.returns "" g_whisperModel
    | some elems =>
      if 0 ≤ data_length ∧ data_length ≤ (elems.length : Int) then
        let audioVector : List F32 := elems.take data_length.toNat
        let result := model.transcribe audioVector
        Outcome.returns result.1 (some result.2)
      else Outcome.undefined

/-- `Java_com_whisperbaseq8rn_WhisperModule_releaseModel`, over the value of
`g_whisperModel` before the call: `g_whisperModel` afterwards (`release()`, then
`reset()`). -/
def releaseModel (g_whisperModel : Option WhisperModel) : Option WhisperModel :=
  match g_whisperModel with
  | some model =>
    let _released : WhisperModel := model.release
    none
  | none => none

end Java_com_whisperbaseq8rn_WhisperModule

open Java_com_whisperbaseq8rn_WhisperModule

/-! ## The states a handle can be in -/

/-- The objects the member functions can produce from a fresh `WhisperModel`. -/
inductive Reachable : WhisperModel → Prop where
  | new : Reachable WhisperModel.new
  | load (fs : FileSystem) (m : WhisperModel) (path : String) :
      Reachable m → Reachable (m.loadModel fs path).2
  | transcribe (m : WhisperModel) (audioData : List F32) :
      Reachable m → Reachable (m.transcribe audioData).2
  | release (m : WhisperModel) : Reachable m → Reachable m.release

/-! ## The specification of the energy -/

/-- The energy in the words of the specification: the square root of the
mean of the squared samples. -/
def rmsEnergy (s : List F32) : F32 :=
  F32.sqrt (F32.div ((s.map (fun x => F32.mul x x)).foldl F32.add F32.zero) (F32.ofNat s.length))

/-- The rational value of a finite `float`; 0 for a NaN and for an infinity. -/
def F32.toRat : F32 → ℚ
  | F32.fin neg m e => (if neg then -1 else 1) * (m : ℚ) * (2 : ℚ) ^ e
  | _ => 0

/-- The mean of the squared samples in exact arithmetic: the square of the
energy when the words of the specification are read over the real numbers. -/
def meanSquare (s : List F32) : ℚ :=
  (s.map (fun x => F32.toRat x * F32.toRat x)).sum / (s.length : ℚ)

/-! ## Concrete inputs -/

/-- A file system in which `"A"` is an empty file, `"C"` a file of 1024 bytes,
and nothing else can be opened. -/
def fsExample : FileSystem :=
  fun path => if path = "A" then some 0 else if path = "C" then some 1024 else none

/-- The handle after `loadModel("A")` on a fresh object, under `fsExample`. -/
def handleLoadedA : WhisperModel := (WhisperModel.new.loadModel fsExample "A").2

/-- The number of samples `2^38`, beyond the range of a `jint`, at which the
`float` sum of samples `1.0f` has long stopped growing. -/
def saturatedLength : Nat := 274877906944

/-- The sample `15185003 * 2^-30`, about `0.014142136` (bit pattern
`0x3C67B46B`), just above `0.01 * sqrt 2`. -/
def roundingSample : F32 := F32.fin false 15185003 (-30)

/-! ## Predicates of the proofs -/

namespace F32

/-- `q` is an integer nearest to `w`, the even one of the two on a tie. -/
def NearestEven (q : Nat) (w : ℝ) : Prop :=
  (q : ℝ) - 1 / 2 ≤ w ∧ w ≤ q + 1 / 2
    ∧ (w = q - 1 / 2 → q % 2 = 0) ∧ (w = q + 1 / 2 → q % 2 = 0)

/-- `roundFin _ m e sticky` stands for the exact value `v`. -/
def Exact (m : Nat) (e : Int) (sticky : Bool) (v : ℝ) : Prop :=
  m ≠ 0 ∧ (m : ℝ) * (2 : ℝ) ^ e ≤ v ∧ v < ((m : ℝ) + 1) * (2 : ℝ) ^ e
    ∧ (sticky = false → v = (m : ℝ) * (2 : ℝ) ^ e)
    ∧ (sticky = true → (m : ℝ) * (2 : ℝ) ^ e < v ∧ 24 < bitLen m)

/-- `x` is the positive finite `float` of value `v`. -/
def PosVal (x : F32) (v : ℝ) : Prop :=
  ∃ (M : Nat) (E : Int),
    x = fin false M E ∧ M ≠ 0 ∧ M < 16777216 ∧ v = (M : ℝ) * (2 : ℝ) ^ E

end F32

/-! ## Lemmas on `WhisperModel` -/

theorem WhisperModel.transcribe_snd (m : WhisperModel) (s : List F32) :
    (m.transcribe s).2 = m := by
  unfold WhisperModel.transcribe
  dsimp only
  split_ifs <;> rfl

theorem WhisperModel.transcribe_unloaded (m : WhisperModel) (s : List F32)
    (h : m.isLoaded = false) : (m.transcribe s).1 = "" := by
  simp [WhisperModel.transcribe, h]

theorem WhisperModel.transcribe_nil (m : WhisperModel) : (m.transcribe []).1 = "" := by
  unfold WhisperModel.transcribe
  split_ifs <;> simp_all

theorem WhisperModel.accumulate_eq_foldl (s : List F32) (energy : F32) :
    WhisperModel.accumulate energy s
      = (s.map (fun x => F32.mul x x)).foldl F32.add energy := by
  induction s generalizing energy with
  | nil => rfl
  | cons x rest ih => simp [WhisperModel.accumulate, ih]

theorem WhisperModel.transcribe_loaded (m : WhisperModel) (s : List F32)
    (hm : m.isLoaded = true) (hs : s ≠ []) :
    (m.transcribe s).1 = if F32.gt (rmsEnergy s) F32.threshold then placeholder else "" := by
  have hne : s.isEmpty = false := by
    cases s with
    | nil => exact absurd rfl hs
    | cons x rest => rfl
  simp only [WhisperModel.transcribe, hm, hne, rmsEnergy, WhisperModel.accumulate_eq_foldl]
  split_ifs <;> simp_all

theorem WhisperModel.transcribe_range (m : WhisperModel) (s : List F32) :
    (m.transcribe s).1 = "" ∨ (m.transcribe s).1 = placeholder := by
  unfold WhisperModel.transcribe
  dsimp only
  split_ifs <;> simp

theorem Reachable.audioBuffer_eq_nil {m : WhisperModel} (h : Reachable m) :
    m.audioBuffer = [] := by
  induction h with
  | new => rfl
  | load fs m path _ ih =>
    unfold WhisperModel.loadModel
    cases fs path <;> simpa using ih
  | transcribe m audioData _ ih => rw [WhisperModel.transcribe_snd]; exact ih
  | release m _ _ => rfl

/-! ## Lemmas on binary32 -/

namespace F32

theorem bitLenAux_zero (fuel : Nat) : bitLenAux fuel 0 = 0 := by
  cases fuel <;> simp [bitLenAux]

theorem bitLenAux_spec (fuel : Nat) :
    ∀ n : Nat, n ≤ fuel → n ≠ 0 →
      2 ^ (bitLenAux fuel n - 1) ≤ n ∧ n < 2 ^ bitLenAux fuel n := by
  induction fuel with
  | zero => intro n h hn; omega
  | succ fuel ih =>
    intro n h hn
    simp only [bitLenAux, hn, if_false, Nat.add_sub_cancel]
    by_cases h2 : n / 2 = 0
    · have h1 : n = 1 := by omega
      subst h1
      simp [bitLenAux_zero]
    · obtain ⟨hlo, hhi⟩ := ih (n / 2) (by omega) h2
      have hk : bitLenAux fuel (n / 2) ≠ 0 := by
        intro h0
        rw [h0] at hhi
        simp at hhi
        exact h2 hhi
      obtain ⟨k, hk2⟩ := Nat.exists_eq_succ_of_ne_zero hk
      rw [hk2] at hlo hhi ⊢
      simp only [Nat.succ_sub_one] at hlo
      rw [Nat.pow_succ] at hhi ⊢
      constructor <;> omega

theorem bitLen_eq_size (n : Nat) : bitLen n = Nat.size n := by
  by_cases hn : n = 0
  · subst hn; simp [bitLen, bitLenAux]
  · obtain ⟨hlo, hhi⟩ := bitLenAux_spec n n le_rfl hn
    apply le_antisymm
    · have h := Nat.lt_size.2 hlo
      have := Nat.size_pos.2 (Nat.pos_of_ne_zero hn)
      unfold bitLen
      omega
    · exact Nat.size_le.2 hhi

theorem bitLen_shiftLeft {m : Nat} (h : m ≠ 0) (s : Nat) :
    bitLen (m <<< s) = bitLen m + s := by
  simp only [bitLen_eq_size, Nat.size_shiftLeft h]

theorem bitLen_pos {m : Nat} (h : m ≠ 0) : 1 ≤ bitLen m := by
  rw [bitLen_eq_size]
  exact Nat.size_pos.2 (Nat.pos_of_ne_zero h)

theorem bitLen_le {m n : Nat} (h : m < 2 ^ n) : bitLen m ≤ n := by
  rw [bitLen_eq_size]
  exact Nat.size_le.2 h

theorem lt_two_pow_bitLen (m : Nat) : m < 2 ^ bitLen m := by
  rw [bitLen_eq_size]
  exact Nat.lt_size_self m

theorem two_pow_bitLen_le {m : Nat} (h : m ≠ 0) : 2 ^ (bitLen m - 1) ≤ m := by
  rw [bitLen_eq_size]
  have := Nat.size_pos.2 (Nat.pos_of_ne_zero h)
  exact Nat.lt_size.1 (by omega)

/-- A nonzero integer below `2^24`, written with `s` extra low zero bits, is
rounded to itself, in normal form. -/
theorem roundFin_shiftLeft_exact (neg : Bool) (k s : Nat) (hk : k ≠ 0) (hlt : k < 16777216) :
    roundFin neg (k <<< s) (-(s : Int)) false
      = fin neg (k <<< (24 - bitLen k)) ((bitLen k : Int) - 24) := by
  have hb1 : 1 ≤ bitLen k := bitLen_pos hk
  have hb2 : bitLen k ≤ 24 := bitLen_le (by simpa using hlt)
  have hks : k <<< s ≠ 0 := by
    rw [Nat.shiftLeft_eq]
    exact Nat.mul_ne_zero hk (by positivity)
  have hmax : max (-(s : Int) + ((bitLen k + s : Nat) : Int) - 24) (-149) = (bitLen k : Int) - 24 := by
    rw [max_eq_left] <;> push_cast <;> omega
  unfold roundFin
  simp only [hks, if_false, bitLen_shiftLeft hk, hmax]
  by_cases hc : (bitLen k : Int) - 24 ≤ -(s : Int)
  · have h104 : ¬ ((bitLen k : Int) - 24 > 104) := by omega
    have hsh : (-(s : Int) - ((bitLen k : Int) - 24)).toNat = 24 - bitLen k - s := by omega
    simp only [hc, if_true, h104, if_false, hsh]
    rw [← Nat.shiftLeft_add]
    congr 2
    omega
  · have h104 : ¬ ((bitLen k : Int) - 24 > 104) := by omega
    obtain ⟨t, ht⟩ : ∃ t, s = (24 - bitLen k) + t := ⟨s - (24 - bitLen k), by omega⟩
    have hsh : ((bitLen k : Int) - 24 - -(s : Int)).toNat = t := by omega
    have hq : (k <<< s) >>> t = k <<< (24 - bitLen k) := by
      rw [ht, Nat.shiftLeft_add]
      exact Nat.shiftLeft_shiftRight _ _
    have hr : (k <<< s) % 2 ^ t = 0 := by
      rw [ht, Nat.shiftLeft_add, Nat.shiftLeft_eq (k <<< (24 - bitLen k))]
      exact Nat.mul_mod_left _ _
    have hhalf : 2 ^ (t - 1) ≠ 0 := by positivity
    have hqlt : k <<< (24 - bitLen k) < 16777216 := by
      rw [Nat.shiftLeft_eq]
      calc k * 2 ^ (24 - bitLen k) < 2 ^ bitLen k * 2 ^ (24 - bitLen k) :=
            Nat.mul_lt_mul_of_pos_right (lt_two_pow_bitLen k) (by positivity)
        _ = 2 ^ 24 := by rw [← Nat.pow_add]; congr 1; omega
        _ = 16777216 := by norm_num
    have hup : (decide (2 ^ (t - 1) < 0)
        || ((0 : Nat) == 2 ^ (t - 1)
            && (false || (k <<< (24 - bitLen k)) % 2 == 1))) = false := by
      have : ((0 : Nat) == 2 ^ (t - 1)) = false := by
        simpa using hhalf.symm
      simp [this]
    simp only [hc, if_false, hsh, hq, hr, hup, Bool.false_eq_true]
    rw [if_neg (Nat.ne_of_lt hqlt), if_neg (Nat.ne_of_lt hqlt), if_neg h104]

/-- The conversion of a nonzero integer below `2^24` is exact. -/
theorem ofNat_exact (k : Nat) (hk : k ≠ 0) (hlt : k < 16777216) :
    ofNat k = fin false (k <<< (24 - bitLen k)) ((bitLen k : Int) - 24) := by
  have h := roundFin_shiftLeft_exact false k 0 hk hlt
  simpa [ofNat] using h

theorem add_ofNat_one (k : Nat) (hk : k ≠ 0) (hlt : k < 16777216) :
    add (ofNat k) one = ofNat (k + 1) := by
  have hb1 : 1 ≤ bitLen k := bitLen_pos hk
  have hb2 : bitLen k ≤ 24 := bitLen_le (by simpa using hlt)
  by_cases hlast : k + 1 = 16777216
  · have hk2 : k = 16777215 := by omega
    subst hk2
    decide
  · have hk1 : k + 1 < 16777216 := by omega
    have hm1 : ¬ (k <<< (24 - bitLen k) = 0 ∧ 8388608 = 0) := by simp
    have hmin : min ((bitLen k : Int) - 24) (-23) = -23 := by
      rw [min_eq_right]; omega
    have hsh1 : ((bitLen k : Int) - 24 - -23).toNat = bitLen k - 1 := by omega
    have hsum : (k <<< (24 - bitLen k)) <<< (bitLen k - 1) = k <<< 23 := by
      rw [← Nat.shiftLeft_add]; congr 1; omega
    have htot : ((k <<< 23 : Nat) : Int) + ((8388608 : Nat) : Int) = (((k + 1) <<< 23 : Nat) : Int) := by
      simp only [Nat.shiftLeft_eq]
      push_cast
      ring
    have hpos : (k + 1) <<< 23 ≠ 0 := by
      rw [Nat.shiftLeft_eq]; positivity
    rw [ofNat_exact k hk hlt]
    show add (fin false (k <<< (24 - bitLen k)) ((bitLen k : Int) - 24)) (fin false 8388608 (-23)) = _
    unfold add
    simp only [hm1, if_false, hmin, hsh1, hsum, signed, Bool.false_eq_true, sub_self, Int.toNat_zero,
      Nat.shiftLeft_zero, htot]
    have hs0 : ¬ ((((k + 1) <<< 23 : Nat) : Int) = 0) := by exact_mod_cast hpos
    have hneg : decide ((((k + 1) <<< 23 : Nat) : Int) < 0) = false := by
      simp
    rw [if_neg hs0, hneg, Int.natAbs_ofNat]
    have h := roundFin_shiftLeft_exact false (k + 1) 23 (by omega) hk1
    rw [ofNat_exact (k + 1) (by omega) hk1]
    simpa using h

set_option maxRecDepth 4000 in
theorem add_zero_one : add zero one = ofNat 1 := by decide

theorem mul_one_one : mul one one = one := by decide

theorem add_saturated : add (ofNat 16777216) one = ofNat 16777216 := by decide

/-- A nonzero finite value divided by itself is `1.0f`. -/
theorem div_self_fin (m : Nat) (e : Int) (hm : m ≠ 0) :
    div (fin false m e) (fin false m e) = one := by
  have hq : (m <<< 64) / m = 18446744073709551616 := by
    rw [Nat.shiftLeft_eq, Nat.mul_div_cancel_left _ (Nat.pos_of_ne_zero hm)]
  have hr : (m <<< 64) % m = 0 := by
    rw [Nat.shiftLeft_eq]; exact Nat.mul_mod_right _ _
  unfold div
  simp only [hm, if_false, hq, hr, sub_self]
  decide

theorem sqrt_one : sqrt one = one := by decide

theorem gt_one_threshold : gt one threshold = true := by decide

/-- The last step of `roundFin`, on a nonzero quotient, is not a zero. -/
theorem roundFin_tail_ne_zero (neg negZ up : Bool) (q : Nat) (eT eZ : Int) (hq : q ≠ 0) :
    (if (if (if up = true then q + 1 else q) = 16777216 then eT + 1 else eT) > 104 then inf neg
      else fin neg (if (if up = true then q + 1 else q) = 16777216 then 8388608
                    else (if up = true then q + 1 else q))
            (if (if up = true then q + 1 else q) = 16777216 then eT + 1 else eT))
      ≠ fin negZ 0 eZ := by
  cases up <;> simp only [Bool.false_eq_true, if_false, if_true] <;> split_ifs <;> (simp; try omega)

/-- The conversion of a nonzero `size_t` is not a zero. -/
theorem ofNat_ne_zero (n : Nat) (hn : n ≠ 0) (neg : Bool) (e : Int) :
    ofNat n ≠ fin neg 0 e := by
  unfold ofNat roundFin
  simp only [hn, if_false, zero_add]
  by_cases h1 : max ((bitLen n : Int) - 24) (-149) ≤ 0
  · simp only [h1, if_true]
    have h104 : ¬ (max ((bitLen n : Int) - 24) (-149) > 104) := by omega
    rw [if_neg h104]
    simp only [ne_eq, fin.injEq, not_and]
    intro _ h0
    rw [Nat.shiftLeft_eq] at h0
    have : n * 2 ^ ((0 : Int) - max ((bitLen n : Int) - 24) (-149)).toNat ≠ 0 :=
      Nat.mul_ne_zero hn (by positivity)
    exact absurd h0 this
  · simp only [h1, if_false]
    have hmax : max ((bitLen n : Int) - 24) (-149) = (bitLen n : Int) - 24 := by
      rw [max_eq_left]
      by_contra hcon
      rw [max_eq_right (by omega)] at h1
      omega
    have hsh : (max ((bitLen n : Int) - 24) (-149) - 0).toNat = bitLen n - 24 := by
      rw [hmax]; omega
    have hq : n >>> (bitLen n - 24) ≠ 0 := by
      rw [Nat.shiftRight_eq_div_pow]
      have h1 : 2 ^ (bitLen n - 24) ≤ n :=
        le_trans (Nat.pow_le_pow_right (by norm_num) (by omega)) (two_pow_bitLen_le hn)
      have := Nat.div_pos h1 (by positivity)
      omega
    rw [hsh]
    exact roundFin_tail_ne_zero _ _ _ _ _ _ hq

/-- The conversion of a nonzero `size_t` is `+inf` or a nonzero positive value. -/
theorem ofNat_cases (n : Nat) (hn : n ≠ 0) :
    ofNat n = inf false ∨ ∃ m e, m ≠ 0 ∧ ofNat n = fin false m e := by
  have hform : ofNat n = inf false ∨ ∃ m e, ofNat n = fin false m e := by
    unfold ofNat roundFin
    simp only [hn, if_false]
    split_ifs <;> first
      | exact Or.inl rfl
      | exact Or.inr ⟨_, _, rfl⟩
  rcases hform with h | ⟨m, e, h⟩
  · exact Or.inl h
  · refine Or.inr ⟨m, e, ?_, h⟩
    intro h0
    subst h0
    exact ofNat_ne_zero n hn false e h

/-- Zero divided by the conversion of a nonzero `size_t` is zero. -/
theorem div_zero_ofNat (n : Nat) (hn : n ≠ 0) : div zero (ofNat n) = zero := by
  rcases ofNat_cases n hn with h | ⟨m, e, hm, h⟩
  · rw [h]; rfl
  · rw [h]
    simp [div, zero, hm, roundFin]

theorem sqrt_zero : sqrt zero = zero := by decide

theorem gt_zero_threshold : gt zero threshold = false := by decide

theorem add_zero_sq_zero : add zero (mul zero zero) = zero := by decide

theorem add_zero_sq_negZero : add zero (mul negZero negZero) = zero := by decide

end F32

/-! ## Lemmas on the energy loop -/

namespace WhisperModel

theorem accumulate_append (energy : F32) (s t : List F32) :
    accumulate energy (s ++ t) = accumulate (accumulate energy s) t := by
  induction s generalizing energy with
  | nil => rfl
  | cons x rest ih => simp [accumulate, ih]

/-- The loop leaves the energy at `0.0f` on samples that are all zero. -/
theorem accumulate_zeros (s : List F32) (h : ∀ x ∈ s, x = F32.zero ∨ x = F32.negZero) :
    accumulate F32.zero s = F32.zero := by
  induction s with
  | nil => rfl
  | cons x rest ih =>
    have hx := h x (List.mem_cons_self x rest)
    have hrest : ∀ y ∈ rest, y = F32.zero ∨ y = F32.negZero :=
      fun y hy => h y (List.mem_cons_of_mem x hy)
    rcases hx with hx | hx
    · subst hx
      simp only [accumulate, F32.add_zero_sq_zero]
      exact ih hrest
    · subst hx
      simp only [accumulate, F32.add_zero_sq_negZero]
      exact ih hrest

/-- The loop counts samples `1.0f` exactly while the count stays within `2^24`. -/
theorem accumulate_ones (j : Nat) :
    ∀ k : Nat, k ≠ 0 → k + j ≤ 16777216 →
      accumulate (F32.ofNat k) (List.replicate j F32.one) = F32.ofNat (k + j) := by
  induction j with
  | zero => intro k _ _; rfl
  | succ j ih =>
    intro k hk hle
    simp only [List.replicate_succ, accumulate, F32.mul_one_one]
    rw [F32.add_ofNat_one k hk (by omega), ih (k + 1) (by omega) (by omega)]
    congr 1
    omega

/-- Once the energy has reached `2^24`, adding `1.0f` leaves it there. -/
theorem accumulate_saturated (j : Nat) :
    accumulate (F32.ofNat 16777216) (List.replicate j F32.one) = F32.ofNat 16777216 := by
  induction j with
  | zero => rfl
  | succ j ih =>
    simp only [List.replicate_succ, accumulate, F32.mul_one_one, F32.add_saturated]
    exact ih

/-- The energy the loop computes on `n` samples `1.0f`. -/
theorem accumulate_zero_ones (n : Nat) (hn : n ≠ 0) :
    accumulate F32.zero (List.replicate n F32.one) = F32.ofNat (min n 16777216) := by
  obtain ⟨j, rfl⟩ := Nat.exists_eq_succ_of_ne_zero hn
  simp only [List.replicate_succ, accumulate, F32.mul_one_one, F32.add_zero_one]
  by_cases hle : j + 1 ≤ 16777216
  · rw [accumulate_ones j 1 (by omega) (by omega), min_eq_left hle]
    congr 1
    omega
  · have hj : j = 16777215 + (j - 16777215) := by omega
    rw [min_eq_right (by omega), hj, List.replicate_add, accumulate_append,
      accumulate_ones 16777215 1 (by omega) (by omega)]
    exact accumulate_saturated _

end WhisperModel

/-! ## More lemmas on `transcribe` -/

namespace WhisperModel

theorem transcribe_loaded_loop (m : WhisperModel) (s : List F32)
    (hm : m.isLoaded = true) (hs : s ≠ []) :
    (m.transcribe s).1
      = if F32.gt (F32.sqrt (F32.div (accumulate F32.zero s) (F32.ofNat s.length)))
            F32.threshold = true
        then placeholder else "" := by
  rw [transcribe_loaded m s hm hs, rmsEnergy, accumulate_eq_foldl]

theorem transcribe_zeros (m : WhisperModel) (s : List F32) (hm : m.isLoaded = true)
    (hs : s ≠ []) (h : ∀ x ∈ s, x = F32.zero ∨ x = F32.negZero) :
    (m.transcribe s).1 = "" := by
  have hlen : s.length ≠ 0 := fun h0 => hs (List.length_eq_zero.1 h0)
  rw [transcribe_loaded_loop m s hm hs, accumulate_zeros s h, F32.div_zero_ofNat _ hlen,
    F32.sqrt_zero, F32.gt_zero_threshold]
  simp

/-- What `transcribe` returns on `n` samples `1.0f`. -/
theorem transcribe_ones (m : WhisperModel) (n : Nat) (hm : m.isLoaded = true) (hn : n ≠ 0) :
    (m.transcribe (List.replicate n F32.one)).1
      = if F32.gt (F32.sqrt (F32.div (F32.ofNat (min n 16777216)) (F32.ofNat n)))
            F32.threshold = true
        then placeholder else "" := by
  have hs : List.replicate n F32.one ≠ [] := by
    intro h0
    exact hn (by simpa using congrArg List.length h0)
  rw [transcribe_loaded_loop m _ hm hs, accumulate_zero_ones n hn, List.length_replicate]

end WhisperModel

theorem F32.div_ofNat_self (n : Nat) (hn : n ≠ 0) (hle : n ≤ 16777216) :
    F32.div (F32.ofNat n) (F32.ofNat n) = F32.one := by
  by_cases hlast : n = 16777216
  · subst hlast
    decide
  · have hlt : n < 16777216 := by omega
    have hne := F32.ofNat_ne_zero n hn false ((F32.bitLen n : Int) - 24)
    rw [F32.ofNat_exact n hn hlt] at hne ⊢
    apply F32.div_self_fin
    intro h0
    rw [h0] at hne
    exact hne rfl

theorem WhisperModel.transcribe_ones_small (m : WhisperModel) (n : Nat)
    (hm : m.isLoaded = true) (hn : n ≠ 0) (hle : n ≤ 16777216) :
    (m.transcribe (List.replicate n F32.one)).1 = placeholder := by
  rw [WhisperModel.transcribe_ones m n hm hn, min_eq_left hle, F32.div_ofNat_self n hn hle,
    F32.sqrt_one, F32.gt_one_threshold]
  simp

theorem placeholder_ne_empty : placeholder ≠ "" := by decide

theorem transcribeAudio_returns_in_range (m : WhisperModel) (elems : List F32) (n : Int)
    (h0 : 0 ≤ n) (hn : n ≤ (elems.length : Int)) :
    transcribeAudio (some m) (some elems) n
      = Outcome.returns (m.transcribe (elems.take n.toNat)).1 (some m) := by
  simp [transcribeAudio, h0, hn, WhisperModel.transcribe_snd]

/-! ## Rounding is monotone -/

namespace F32

theorem NearestEven.mono {q1 q2 : Nat} {w1 w2 : ℝ} (h1 : NearestEven q1 w1)
    (h2 : NearestEven q2 w2) (hw : w1 ≤ w2) : q1 ≤ q2 := by
  by_contra hlt
  push_neg at hlt
  have hc : (q2 : ℝ) + 1 ≤ q1 := by exact_mod_cast hlt
  obtain ⟨a1, _, c1, _⟩ := h1
  obtain ⟨_, b2, _, d2⟩ := h2
  have e1 : w1 = q1 - 1 / 2 := by linarith
  have e2 : w2 = q2 + 1 / 2 := by linarith
  have hq : (q1 : ℝ) = q2 + 1 := by linarith
  have hq2 : q1 = q2 + 1 := by exact_mod_cast hq
  have := c1 e1
  have := d2 e2
  omega

theorem NearestEven.self (q : Nat) : NearestEven q (q : ℝ) := by
  refine ⟨by linarith, by linarith, ?_, ?_⟩ <;> intro h <;> linarith

/-- The integer step of `roundFin` yields a nearest integer, ties to even. -/
theorem rne_nearest (m sh : Nat) (st : Bool) (u : ℝ) (hsh : 1 ≤ sh)
    (hu1 : (m : ℝ) ≤ u) (hu2 : u < m + 1) (hst0 : st = false → u = m)
    (hst1 : st = true → (m : ℝ) < u) :
    NearestEven
      (if (decide (2 ^ (sh - 1) < m % 2 ^ sh)
            || (m % 2 ^ sh == 2 ^ (sh - 1) && (st || (m >>> sh) % 2 == 1))) = true
        then m >>> sh + 1 else m >>> sh)
      (u / 2 ^ sh) := by
  obtain ⟨k, rfl⟩ : ∃ k, sh = k + 1 := ⟨sh - 1, by omega⟩
  simp only [Nat.add_sub_cancel, Nat.shiftRight_eq_div_pow]
  have hdm := Nat.div_add_mod m (2 ^ (k + 1))
  have hr := Nat.mod_lt m (show 0 < 2 ^ (k + 1) by positivity)
  set q := m / 2 ^ (k + 1) with hq
  set r := m % 2 ^ (k + 1) with hrdef
  set half := 2 ^ k with hhalf
  have hP : (2 : ℝ) ^ (k + 1) = 2 * (half : ℝ) := by
    rw [hhalf]; push_cast; ring
  have hPn : 2 ^ (k + 1) = 2 * half := by rw [hhalf]; ring
  have hhpos : (0 : ℝ) < half := by rw [hhalf]; positivity
  have hmR : (m : ℝ) = 2 * half * q + r := by
    have : m = 2 * half * q + r := by rw [← hPn]; exact hdm.symm
    exact_mod_cast this
  have hrR : (r : ℝ) + 1 ≤ 2 * half := by
    have : r + 1 ≤ 2 * half := by omega
    exact_mod_cast this
  rw [hP]
  have hden : (0 : ℝ) < 2 * half := by linarith
  unfold NearestEven
  by_cases hup : (decide (half < r) || (r == half && (st || q % 2 == 1))) = true
  · rw [if_pos hup]
    have hge : half ≤ r := by
      simp only [Bool.or_eq_true, decide_eq_true_eq, Bool.and_eq_true, beq_iff_eq] at hup
      omega
    have hgeR : (half : ℝ) ≤ r := by exact_mod_cast hge
    push_cast
    refine ⟨?_, ?_, ?_, ?_⟩
    · rw [le_div_iff₀ hden]; linarith
    · rw [div_le_iff₀ hden]; linarith
    · intro hw
      rw [div_eq_iff hden.ne'] at hw
      have hu : u = m ∧ r = half := by
        constructor
        · linarith
        · have : (r : ℝ) = half := by linarith
          exact_mod_cast this
      have hst : st = false := by
        cases st
        · rfl
        · have := hst1 rfl; linarith [hu.1]
      simp only [Bool.or_eq_true, decide_eq_true_eq, Bool.and_eq_true, beq_iff_eq, hst,
        Bool.false_eq_true, false_or] at hup
      omega
    · intro hw
      rw [div_eq_iff hden.ne'] at hw
      linarith
  · rw [if_neg hup]
    simp only [Bool.or_eq_true, decide_eq_true_eq, Bool.and_eq_true, beq_iff_eq, not_or, not_lt,
      not_and] at hup
    obtain ⟨hle, htie⟩ := hup
    have hleR : (r : ℝ) ≤ half := by exact_mod_cast hle
    have hrlt : r = half ∨ (r : ℝ) + 1 ≤ half := by
      rcases Nat.eq_or_lt_of_le hle with h | h
      · exact Or.inl h
      · right; exact_mod_cast h
    have hstrict : r = half → u = m ∧ q % 2 = 0 := by
      intro hrh
      have h := htie hrh
      cases st
      · refine ⟨hst0 rfl, ?_⟩
        simp only [Bool.false_eq_true, beq_iff_eq, false_or] at h
        omega
      · simp at h
    refine ⟨?_, ?_, ?_, ?_⟩
    · rw [le_div_iff₀ hden]; linarith
    · rw [div_le_iff₀ hden]
      rcases hrlt with h | h
      · have := (hstrict h).1
        have hrh : (r : ℝ) = half := by exact_mod_cast h
        linarith
      · linarith
    · intro hw
      rw [div_eq_iff hden.ne'] at hw
      linarith
    · intro hw
      rw [div_eq_iff hden.ne'] at hw
      rcases hrlt with h | h
      · exact (hstrict h).2
      · linarith

/-- In the normal range, `roundFin` returns the finite value `Q * 2^t`, where
`t` is the exponent of the last kept bit and `Q` a nearest integer, ties to
even, of the exact value divided by `2^t`. -/
theorem roundFin_nearest (m : Nat) (e : Int) (st : Bool) (v : ℝ) (hm : m ≠ 0)
    (hlo : -125 ≤ e + (bitLen m : Int)) (hhi : e + (bitLen m : Int) ≤ 127)
    (hv1 : (m : ℝ) * (2 : ℝ) ^ e ≤ v) (hv2 : v < ((m : ℝ) + 1) * (2 : ℝ) ^ e)
    (hst0 : st = false → v = (m : ℝ) * (2 : ℝ) ^ e)
    (hst1 : st = true → (m : ℝ) * (2 : ℝ) ^ e < v ∧ 24 < bitLen m) :
    ∃ (Q M : Nat) (E : Int), roundFin false m e st = fin false M E
      ∧ M < 16777216
      ∧ (M : ℝ) * (2 : ℝ) ^ E = (Q : ℝ) * (2 : ℝ) ^ (e + (bitLen m : Int) - 24)
      ∧ NearestEven Q (v / (2 : ℝ) ^ (e + (bitLen m : Int) - 24)) := by
  have h2 : (2 : ℝ) ≠ 0 := two_ne_zero
  have hmax : max (e + (bitLen m : Int) - 24) (-149) = e + (bitLen m : Int) - 24 := by
    rw [max_eq_left]; omega
  unfold roundFin
  simp only [hm, if_false, hmax]
  set t : Int := e + (bitLen m : Int) - 24 with ht
  have ht104 : ¬ (t > 104) := by omega
  by_cases hc : t ≤ e
  · have hstF : st = false := by
      cases st
      · rfl
      · have := (hst1 rfl).2; omega
    rw [if_pos hc, if_neg ht104]
    have hlt : m <<< (e - t).toNat < 16777216 := by
      have h1 := lt_two_pow_bitLen (m <<< (e - t).toNat)
      rw [bitLen_shiftLeft hm] at h1
      have h24 : bitLen m + (e - t).toNat = 24 := by omega
      rw [h24] at h1
      exact h1
    refine ⟨m <<< (e - t).toNat, _, _, rfl, hlt, rfl, ?_⟩
    have hval : v / (2 : ℝ) ^ t = ((m <<< (e - t).toNat : Nat) : ℝ) := by
      rw [hst0 hstF, Nat.shiftLeft_eq]
      push_cast
      have hsplit : (2 : ℝ) ^ e = (2 : ℝ) ^ t * (2 : ℝ) ^ ((e - t).toNat) := by
        rw [← zpow_natCast, ← zpow_add₀ h2]
        congr 1
        omega
      rw [hsplit]
      field_simp
      ring
    rw [hval]
    exact NearestEven.self _
  · rw [if_neg hc]
    obtain ⟨sh, hsh⟩ : ∃ sh : Nat, (t - e).toNat = sh := ⟨_, rfl⟩
    have hsh1 : 1 ≤ sh := by omega
    have hte : t = e + (sh : Int) := by omega
    simp only [hsh]
    have hpe : (0 : ℝ) < (2 : ℝ) ^ e := by positivity
    have hsplit : (2 : ℝ) ^ t = (2 : ℝ) ^ e * (2 : ℝ) ^ sh := by
      rw [hte, zpow_add₀ h2, zpow_natCast]
    have hnear := rne_nearest m sh st (v / (2 : ℝ) ^ e) hsh1
      (by rw [le_div_iff₀ hpe]; exact hv1)
      (by rw [div_lt_iff₀ hpe]; exact hv2)
      (fun h => by rw [hst0 h]; field_simp)
      (fun h => by rw [lt_div_iff₀ hpe]; exact (hst1 h).1)
    have hvt : v / (2 : ℝ) ^ t = v / (2 : ℝ) ^ e / (2 : ℝ) ^ sh := by
      rw [hsplit, div_div]
    rw [hvt]
    have hqlt : m >>> sh < 16777216 := by
      rw [Nat.shiftRight_eq_div_pow, Nat.div_lt_iff_lt_mul (by positivity)]
      have h1 := lt_two_pow_bitLen m
      have h24 : bitLen m = 24 + sh := by omega
      rw [h24, Nat.pow_add] at h1
      exact h1
    have hQle : (if (decide (2 ^ (sh - 1) < m % 2 ^ sh)
            || (m % 2 ^ sh == 2 ^ (sh - 1) && (st || (m >>> sh) % 2 == 1))) = true
        then m >>> sh + 1 else m >>> sh) ≤ 16777216 := by
      split_ifs <;> omega
    generalize (if (decide (2 ^ (sh - 1) < m % 2 ^ sh)
            || (m % 2 ^ sh == 2 ^ (sh - 1) && (st || (m >>> sh) % 2 == 1))) = true
        then m >>> sh + 1 else m >>> sh) = Q at hnear hQle ⊢
    by_cases hQ : Q = 16777216
    · simp only [hQ, if_true]
      have : ¬ (t + 1 > 104) := by omega
      rw [if_neg this]
      refine ⟨16777216, _, _, rfl, by norm_num, ?_, by rw [← hQ]; exact hnear⟩
      rw [zpow_add₀ h2]
      push_cast
      ring
    · simp only [hQ, if_false]
      rw [if_neg ht104]
      exact ⟨Q, _, _, rfl, by omega, rfl, hnear⟩

/-- The exact value handed to `roundFin` lies between two powers of two fixed
by the bit length of `m`. -/
theorem exact_bracket (m : Nat) (e : Int) (v : ℝ) (hm : m ≠ 0)
    (hv1 : (m : ℝ) * (2 : ℝ) ^ e ≤ v) (hv2 : v < ((m : ℝ) + 1) * (2 : ℝ) ^ e) :
    (2 : ℝ) ^ (e + (bitLen m : Int) - 1) ≤ v ∧ v < (2 : ℝ) ^ (e + (bitLen m : Int)) := by
  have h2 : (2 : ℝ) ≠ 0 := two_ne_zero
  have hpe : (0 : ℝ) < (2 : ℝ) ^ e := by positivity
  have hb := bitLen_pos hm
  have hlo : (2 : ℝ) ^ (bitLen m - 1) ≤ m := by exact_mod_cast two_pow_bitLen_le hm
  have hhi : (m : ℝ) + 1 ≤ (2 : ℝ) ^ bitLen m := by
    exact_mod_cast (lt_two_pow_bitLen m : m + 1 ≤ 2 ^ bitLen m)
  constructor
  · have : (2 : ℝ) ^ (e + (bitLen m : Int) - 1) = (2 : ℝ) ^ (bitLen m - 1) * (2 : ℝ) ^ e := by
      rw [← zpow_natCast, ← zpow_add₀ h2]
      congr 1
      omega
    rw [this]
    exact le_trans (mul_le_mul_of_nonneg_right hlo hpe.le) hv1
  · have : (2 : ℝ) ^ (e + (bitLen m : Int)) = (2 : ℝ) ^ bitLen m * (2 : ℝ) ^ e := by
      rw [← zpow_natCast, ← zpow_add₀ h2]
      congr 1
      omega
    rw [this]
    exact lt_of_lt_of_le hv2 (mul_le_mul_of_nonneg_right hhi hpe.le)

/-- The nearest integer of a value in `[2^23, 2^24)` lies in `[2^23, 2^24]`. -/
theorem NearestEven.bounds {Q : Nat} {w : ℝ} (h : NearestEven Q w)
    (hlo : (8388608 : ℝ) ≤ w) (hhi : w < 16777216) : 8388608 ≤ Q ∧ Q ≤ 16777216 := by
  obtain ⟨a, b, _, _⟩ := h
  constructor
  · by_contra hc
    push_neg at hc
    have : (Q : ℝ) + 1 ≤ 8388608 := by exact_mod_cast hc
    linarith
  · by_contra hc
    push_neg at hc
    have : (16777216 : ℝ) + 1 ≤ Q := by exact_mod_cast hc
    linarith

/-- Rounding is monotone: of two exact values in the normal range, the larger
one is not rounded to the smaller result. -/
theorem roundFin_mono (m1 m2 : Nat) (e1 e2 : Int) (st1 st2 : Bool) (v1 v2 : ℝ)
    (hm1 : m1 ≠ 0) (hm2 : m2 ≠ 0)
    (hlo1 : -125 ≤ e1 + (bitLen m1 : Int)) (hhi1 : e1 + (bitLen m1 : Int) ≤ 127)
    (hlo2 : -125 ≤ e2 + (bitLen m2 : Int)) (hhi2 : e2 + (bitLen m2 : Int) ≤ 127)
    (ha1 : (m1 : ℝ) * (2 : ℝ) ^ e1 ≤ v1) (hb1 : v1 < ((m1 : ℝ) + 1) * (2 : ℝ) ^ e1)
    (hc1 : st1 = false → v1 = (m1 : ℝ) * (2 : ℝ) ^ e1)
    (hd1 : st1 = true → (m1 : ℝ) * (2 : ℝ) ^ e1 < v1 ∧ 24 < bitLen m1)
    (ha2 : (m2 : ℝ) * (2 : ℝ) ^ e2 ≤ v2) (hb2 : v2 < ((m2 : ℝ) + 1) * (2 : ℝ) ^ e2)
    (hc2 : st2 = false → v2 = (m2 : ℝ) * (2 : ℝ) ^ e2)
    (hd2 : st2 = true → (m2 : ℝ) * (2 : ℝ) ^ e2 < v2 ∧ 24 < bitLen m2)
    (hv : v1 ≤ v2) :
    ∃ (M1 : Nat) (E1 : Int) (M2 : Nat) (E2 : Int),
      roundFin false m1 e1 st1 = fin false M1 E1 ∧ roundFin false m2 e2 st2 = fin false M2 E2
      ∧ M1 ≠ 0 ∧ M2 ≠ 0 ∧ M1 < 16777216 ∧ M2 < 16777216
      ∧ (M1 : ℝ) * (2 : ℝ) ^ E1 ≤ (M2 : ℝ) * (2 : ℝ) ^ E2 := by
  have h2 : (2 : ℝ) ≠ 0 := two_ne_zero
  obtain ⟨Q1, M1, E1, hr1, hM1lt, hval1, hn1⟩ :=
    roundFin_nearest m1 e1 st1 v1 hm1 hlo1 hhi1 ha1 hb1 hc1 hd1
  obtain ⟨Q2, M2, E2, hr2, hM2lt, hval2, hn2⟩ :=
    roundFin_nearest m2 e2 st2 v2 hm2 hlo2 hhi2 ha2 hb2 hc2 hd2
  obtain ⟨hbl1, hbh1⟩ := exact_bracket m1 e1 v1 hm1 ha1 hb1
  obtain ⟨hbl2, hbh2⟩ := exact_bracket m2 e2 v2 hm2 ha2 hb2
  set t1 : Int := e1 + (bitLen m1 : Int) - 24 with ht1
  set t2 : Int := e2 + (bitLen m2 : Int) - 24 with ht2
  have hp1 : (0 : ℝ) < (2 : ℝ) ^ t1 := by positivity
  have hp2 : (0 : ℝ) < (2 : ℝ) ^ t2 := by positivity
  have hw : ∀ (e : Int) (b : Nat) (v : ℝ), (2 : ℝ) ^ (e + (b : Int) - 1) ≤ v →
      v < (2 : ℝ) ^ (e + (b : Int)) →
      (8388608 : ℝ) ≤ v / (2 : ℝ) ^ (e + (b : Int) - 24)
        ∧ v / (2 : ℝ) ^ (e + (b : Int) - 24) < 16777216 := by
    intro e b v hl hh
    have hp : (0 : ℝ) < (2 : ℝ) ^ (e + (b : Int) - 24) := by positivity
    have e1 : (2 : ℝ) ^ (e + (b : Int) - 1) = 8388608 * (2 : ℝ) ^ (e + (b : Int) - 24) := by
      have : e + (b : Int) - 1 = 23 + (e + (b : Int) - 24) := by ring
      rw [this, zpow_add₀ h2]
      norm_num
    have e2 : (2 : ℝ) ^ (e + (b : Int)) = 16777216 * (2 : ℝ) ^ (e + (b : Int) - 24) := by
      have : e + (b : Int) = 24 + (e + (b : Int) - 24) := by ring
      rw [this, zpow_add₀ h2]
      norm_num
    rw [le_div_iff₀ hp, div_lt_iff₀ hp, ← e1, ← e2]
    exact ⟨hl, hh⟩
  obtain ⟨hw1l, hw1h⟩ := hw e1 (bitLen m1) v1 hbl1 hbh1
  obtain ⟨hw2l, hw2h⟩ := hw e2 (bitLen m2) v2 hbl2 hbh2
  obtain ⟨hQ1l, hQ1h⟩ := hn1.bounds hw1l hw1h
  obtain ⟨hQ2l, hQ2h⟩ := hn2.bounds hw2l hw2h
  have hM : ∀ (M Q : Nat) (E t : Int), (M : ℝ) * (2 : ℝ) ^ E = (Q : ℝ) * (2 : ℝ) ^ t →
      8388608 ≤ Q → M ≠ 0 := by
    intro M Q E t h hQ hM0
    subst hM0
    have hQpos : (0 : ℝ) < Q := by
      have : 0 < Q := by omega
      exact_mod_cast this
    have : (0 : ℝ) < (Q : ℝ) * (2 : ℝ) ^ t := by positivity
    rw [← h] at this
    simp at this
  refine ⟨M1, E1, M2, E2, hr1, hr2, hM M1 Q1 E1 t1 hval1 hQ1l, hM M2 Q2 E2 t2 hval2 hQ2l,
    hM1lt, hM2lt, ?_⟩
  rw [hval1, hval2]
  have hlt : e1 + (bitLen m1 : Int) - 1 < e2 + (bitLen m2 : Int) := by
    have : (2 : ℝ) ^ (e1 + (bitLen m1 : Int) - 1) < (2 : ℝ) ^ (e2 + (bitLen m2 : Int)) :=
      lt_of_le_of_lt hbl1 (lt_of_le_of_lt hv hbh2)
    exact (zpow_lt_zpow_iff_right₀ (by norm_num : (1 : ℝ) < 2)).1 this
  have ht12 : t1 ≤ t2 := by omega
  rcases eq_or_lt_of_le ht12 with heq | hlt12
  · rw [← heq] at hn2 ⊢
    have hq : Q1 ≤ Q2 := hn1.mono hn2 (div_le_div_of_nonneg_right hv hp1.le)
    have : (Q1 : ℝ) ≤ Q2 := by exact_mod_cast hq
    exact mul_le_mul_of_nonneg_right this hp1.le
  · have hQ1R : (Q1 : ℝ) ≤ 16777216 := by exact_mod_cast hQ1h
    have hQ2R : (8388608 : ℝ) ≤ Q2 := by exact_mod_cast hQ2l
    have hstep : (2 : ℝ) ^ (t1 + 1) ≤ (2 : ℝ) ^ t2 :=
      zpow_le_zpow_right₀ (by norm_num) (by omega)
    have hexp : (2 : ℝ) ^ (t1 + 1) = 2 * (2 : ℝ) ^ t1 := by
      rw [zpow_add₀ h2]; ring
    calc (Q1 : ℝ) * (2 : ℝ) ^ t1 ≤ 16777216 * (2 : ℝ) ^ t1 :=
          mul_le_mul_of_nonneg_right hQ1R hp1.le
      _ = 8388608 * (2 : ℝ) ^ (t1 + 1) := by rw [hexp]; ring
      _ ≤ 8388608 * (2 : ℝ) ^ t2 := by linarith
      _ ≤ (Q2 : ℝ) * (2 : ℝ) ^ t2 := mul_le_mul_of_nonneg_right hQ2R hp2.le

theorem PosVal.pos {x : F32} {v : ℝ} (h : PosVal x v) : 0 < v := by
  obtain ⟨M, E, _, hM, _, rfl⟩ := h
  have : (0 : ℝ) < M := by exact_mod_cast Nat.pos_of_ne_zero hM
  positivity

theorem PosVal.unique {x : F32} {v w : ℝ} (h1 : PosVal x v) (h2 : PosVal x w) : v = w := by
  obtain ⟨M, E, hx, _, _, rfl⟩ := h1
  obtain ⟨M2, E2, hx2, _, _, rfl⟩ := h2
  rw [hx] at hx2
  injection hx2 with _ hM hE
  rw [hM, hE]

/-- Rounding is monotone on exact values between `2^-120` and `2^120`. -/
theorem roundFin_mono_val (m1 m2 : Nat) (e1 e2 : Int) (st1 st2 : Bool) (v1 v2 : ℝ)
    (h1 : Exact m1 e1 st1 v1) (h2 : Exact m2 e2 st2 v2)
    (hlo : (2 : ℝ) ^ (-120 : Int) ≤ v1) (hhi : v2 ≤ (2 : ℝ) ^ (120 : Int)) (hv : v1 ≤ v2) :
    ∃ w1 w2 : ℝ, PosVal (roundFin false m1 e1 st1) w1 ∧ PosVal (roundFin false m2 e2 st2) w2
      ∧ w1 ≤ w2 := by
  obtain ⟨hm1, ha1, hb1, hc1, hd1⟩ := h1
  obtain ⟨hm2, ha2, hb2, hc2, hd2⟩ := h2
  have one2 : (1 : ℝ) < 2 := by norm_num
  have hrange : ∀ (m : Nat) (e : Int) (v : ℝ), m ≠ 0 → (m : ℝ) * (2 : ℝ) ^ e ≤ v →
      v < ((m : ℝ) + 1) * (2 : ℝ) ^ e → (2 : ℝ) ^ (-120 : Int) ≤ v → v ≤ (2 : ℝ) ^ (120 : Int) →
      -125 ≤ e + (bitLen m : Int) ∧ e + (bitLen m : Int) ≤ 127 := by
    intro m e v hm ha hb hl hh
    obtain ⟨hbl, hbh⟩ := exact_bracket m e v hm ha hb
    have h1 : (-120 : Int) < e + (bitLen m : Int) :=
      (zpow_lt_zpow_iff_right₀ one2).1 (lt_of_le_of_lt hl hbh)
    have h2 : e + (bitLen m : Int) - 1 ≤ 120 :=
      (zpow_le_zpow_iff_right₀ one2).1 (le_trans hbl hh)
    constructor <;> omega
  obtain ⟨hlo1, hhi1⟩ := hrange m1 e1 v1 hm1 ha1 hb1 hlo (le_trans hv hhi)
  obtain ⟨hlo2, hhi2⟩ := hrange m2 e2 v2 hm2 ha2 hb2 (le_trans hlo hv) hhi
  obtain ⟨M1, E1, M2, E2, hr1, hr2, hM1, hM2, hM1lt, hM2lt, hle⟩ :=
    roundFin_mono m1 m2 e1 e2 st1 st2 v1 v2 hm1 hm2 hlo1 hhi1 hlo2 hhi2 ha1 hb1 hc1 hd1
      ha2 hb2 hc2 hd2 hv
  exact ⟨_, _, ⟨M1, E1, hr1, hM1, hM1lt, rfl⟩, ⟨M2, E2, hr2, hM2, hM2lt, rfl⟩, hle⟩

/-- On positive finite values `gt` is the order of the reals. -/
theorem gt_iff_of_posVal {x y : F32} {v w : ℝ} (hx : PosVal x v) (hy : PosVal y w) :
    gt x y = true ↔ w < v := by
  obtain ⟨M1, E1, rfl, _, _, rfl⟩ := hx
  obtain ⟨M2, E2, rfl, _, _, rfl⟩ := hy
  have h2 : (2 : ℝ) ≠ 0 := two_ne_zero
  simp only [gt, signed, Bool.false_eq_true, if_false, decide_eq_true_eq]
  set d : Int := min E1 E2 with hd
  have hp : (0 : ℝ) < (2 : ℝ) ^ d := by positivity
  have hcast : ∀ (M : Nat) (E : Int), d ≤ E →
      (((M <<< (E - d).toNat : Nat) : Int) : ℝ) * (2 : ℝ) ^ d = (M : ℝ) * (2 : ℝ) ^ E := by
    intro M E hle
    rw [Nat.shiftLeft_eq]
    push_cast
    have : (2 : ℝ) ^ E = (2 : ℝ) ^ ((E - d).toNat) * (2 : ℝ) ^ d := by
      rw [← zpow_natCast, ← zpow_add₀ h2]
      congr 1
      omega
    rw [this]
    ring
  rw [← hcast M1 E1 (min_le_left _ _), ← hcast M2 E2 (min_le_right _ _)]
  rw [mul_lt_mul_right hp]
  exact Int.cast_lt.symm

theorem exact_ofNat (n : Nat) (hn : n ≠ 0) : Exact n 0 false (n : ℝ) := by
  refine ⟨hn, by simp, by simp, fun _ => by simp, fun h => by simp at h⟩

/-- The conversion from `size_t` is monotone. -/
theorem ofNat_mono (n1 n2 : Nat) (h1 : n1 ≠ 0) (h12 : n1 ≤ n2)
    (h2 : n2 ≤ 18446744073709551616) :
    ∃ w1 w2 : ℝ, PosVal (ofNat n1) w1 ∧ PosVal (ofNat n2) w2 ∧ w1 ≤ w2 := by
  have hn2 : n2 ≠ 0 := by omega
  have hlo : (2 : ℝ) ^ (-120 : Int) ≤ (n1 : ℝ) := by
    have h1R : (1 : ℝ) ≤ n1 := by exact_mod_cast Nat.pos_of_ne_zero h1
    have : (2 : ℝ) ^ (-120 : Int) ≤ 1 := zpow_le_one_of_nonpos₀ (by norm_num) (by norm_num)
    linarith
  have hhi : (n2 : ℝ) ≤ (2 : ℝ) ^ (120 : Int) := by
    have h2R : (n2 : ℝ) ≤ 18446744073709551616 := by exact_mod_cast h2
    have : (18446744073709551616 : ℝ) ≤ (2 : ℝ) ^ (120 : Int) := by norm_num
    linarith
  exact roundFin_mono_val n1 n2 0 0 false false n1 n2 (exact_ofNat n1 h1) (exact_ofNat n2 hn2)
    hlo hhi (by exact_mod_cast h12)

theorem div_fin_fin (m1 m2 : Nat) (e1 e2 : Int) (h2 : m2 ≠ 0) :
    div (fin false m1 e1) (fin false m2 e2)
      = roundFin false ((m1 <<< 64) / m2) (e1 - e2 - 64) (decide ((m1 <<< 64) % m2 ≠ 0)) := by
  simp [div, h2]

theorem exact_div (m1 m2 : Nat) (e1 e2 : Int) (h1 : m1 ≠ 0) (h2 : m2 ≠ 0)
    (h2lt : m2 < 16777216) :
    Exact ((m1 <<< 64) / m2) (e1 - e2 - 64) (decide ((m1 <<< 64) % m2 ≠ 0))
      (((m1 : ℝ) * (2 : ℝ) ^ e1) / ((m2 : ℝ) * (2 : ℝ) ^ e2)) := by
  have h2' : (2 : ℝ) ≠ 0 := two_ne_zero
  rw [Nat.shiftLeft_eq]
  set N := m1 * 2 ^ 64 with hN
  have hdm := Nat.div_add_mod N m2
  have hr := Nat.mod_lt N (Nat.pos_of_ne_zero h2)
  set q := N / m2 with hq
  set r := N % m2 with hrd
  have hq40 : 2 ^ 40 ≤ q := by
    rw [hq, Nat.le_div_iff_mul_le (Nat.pos_of_ne_zero h2)]
    have : 1 ≤ m1 := Nat.pos_of_ne_zero h1
    calc 2 ^ 40 * m2 ≤ 2 ^ 40 * 2 ^ 24 := by
          apply Nat.mul_le_mul_left; omega
      _ = 1 * 2 ^ 64 := by norm_num
      _ ≤ m1 * 2 ^ 64 := Nat.mul_le_mul_right _ this
  have hm2R : (0 : ℝ) < m2 := by exact_mod_cast Nat.pos_of_ne_zero h2
  have hpk : (0 : ℝ) < (2 : ℝ) ^ (e1 - e2 - 64) := by positivity
  have hNR : (N : ℝ) = (m2 : ℝ) * q + r := by exact_mod_cast hdm.symm
  have hrR : (r : ℝ) < m2 := by exact_mod_cast hr
  have hr0 : (0 : ℝ) ≤ r := by positivity
  have hv : ((m1 : ℝ) * (2 : ℝ) ^ e1) / ((m2 : ℝ) * (2 : ℝ) ^ e2)
      = ((N : ℝ) / m2) * (2 : ℝ) ^ (e1 - e2 - 64) := by
    have hpe2 : (2 : ℝ) ^ e2 ≠ 0 := by positivity
    have : (2 : ℝ) ^ (e1 - e2 - 64) = (2 : ℝ) ^ e1 / (2 : ℝ) ^ e2 / (2 : ℝ) ^ (64 : Int) := by
      rw [zpow_sub₀ h2', zpow_sub₀ h2']
    rw [this, hN]
    push_cast
    field_simp
    norm_num
    ring
  rw [hv]
  refine ⟨by omega, ?_, ?_, ?_, ?_⟩
  · apply mul_le_mul_of_nonneg_right _ hpk.le
    rw [le_div_iff₀ hm2R, hNR]
    nlinarith
  · apply mul_lt_mul_of_pos_right _ hpk
    rw [div_lt_iff₀ hm2R, hNR]
    nlinarith
  · intro hst
    simp only [ne_eq, decide_not, Bool.not_eq_eq_eq_not, Bool.not_false, decide_eq_true_eq] at hst
    have : (r : ℝ) = 0 := by exact_mod_cast hst
    congr 1
    rw [div_eq_iff hm2R.ne', hNR, this]
    ring
  · intro hst
    simp only [ne_eq, decide_not, Bool.not_eq_eq_eq_not, Bool.not_true, decide_eq_false_iff_not] at hst
    have hrpos : (0 : ℝ) < r := by
      have : 0 < r := Nat.pos_of_ne_zero hst
      exact_mod_cast this
    constructor
    · apply mul_lt_mul_of_pos_right _ hpk
      rw [lt_div_iff₀ hm2R, hNR]
      nlinarith
    · by_contra hc
      push_neg at hc
      have h1 := lt_two_pow_bitLen q
      have : 2 ^ bitLen q ≤ 2 ^ 24 := Nat.pow_le_pow_right (by norm_num) hc
      have : (2 : Nat) ^ 24 < 2 ^ 40 := by norm_num
      omega

theorem natSqrtAux_spec (b : Nat) :
    ∀ n r : Nat, r * r ≤ n → n < (r + 2 ^ b) * (r + 2 ^ b) →
      natSqrtAux b n r * natSqrtAux b n r ≤ n
        ∧ n < (natSqrtAux b n r + 1) * (natSqrtAux b n r + 1) := by
  induction b with
  | zero =>
    intro n r h1 h2
    simpa [natSqrtAux] using ⟨h1, h2⟩
  | succ b ih =>
    intro n r h1 h2
    unfold natSqrtAux
    by_cases hc : (r + 2 ^ b) * (r + 2 ^ b) ≤ n
    · rw [if_pos hc]
      apply ih n (r + 2 ^ b) hc
      have : r + 2 ^ b + 2 ^ b = r + 2 ^ (b + 1) := by rw [Nat.pow_succ]; omega
      rw [this]
      exact h2
    · rw [if_neg hc]
      exact ih n r h1 (by omega)

/-- `natSqrt n` is the integer square root of `n`, rounded down. -/
theorem natSqrt_spec (n : Nat) :
    natSqrt n * natSqrt n ≤ n ∧ n < (natSqrt n + 1) * (natSqrt n + 1) := by
  apply natSqrtAux_spec _ n 0 (by simp)
  have h1 := lt_two_pow_bitLen n
  have h2 : 2 ^ bitLen n ≤ 2 ^ (bitLen n / 2 + 1) * 2 ^ (bitLen n / 2 + 1) := by
    rw [← Nat.pow_add]
    exact Nat.pow_le_pow_right (by norm_num) (by omega)
  simpa using lt_of_lt_of_le h1 h2

theorem sqrt_fin (m : Nat) (e : Int) (hm : m ≠ 0) :
    sqrt (fin false m e)
      = roundFin false (natSqrt (m <<< (if (e - 64) % 2 = 0 then 64 else 65)))
          ((e - ((if (e - 64) % 2 = 0 then 64 else 65 : Nat) : Int)) / 2)
          (decide (natSqrt (m <<< (if (e - 64) % 2 = 0 then 64 else 65))
              * natSqrt (m <<< (if (e - 64) % 2 = 0 then 64 else 65))
            ≠ m <<< (if (e - 64) % 2 = 0 then 64 else 65))) := by
  simp [sqrt, hm]

theorem exact_sqrt (m : Nat) (e : Int) (hm : m ≠ 0) :
    Exact (natSqrt (m <<< (if (e - 64) % 2 = 0 then 64 else 65)))
      ((e - ((if (e - 64) % 2 = 0 then 64 else 65 : Nat) : Int)) / 2)
      (decide (natSqrt (m <<< (if (e - 64) % 2 = 0 then 64 else 65))
          * natSqrt (m <<< (if (e - 64) % 2 = 0 then 64 else 65))
        ≠ m <<< (if (e - 64) % 2 = 0 then 64 else 65)))
      (Real.sqrt ((m : ℝ) * (2 : ℝ) ^ e)) := by
  have h2 : (2 : ℝ) ≠ 0 := two_ne_zero
  obtain ⟨s, hs, hs64⟩ : ∃ s : Nat, (if (e - 64) % 2 = 0 then 64 else 65) = s
      ∧ (s = 64 ∨ s = 65) := by
    by_cases h : (e - 64) % 2 = 0
    · exact ⟨64, by simp [h], Or.inl rfl⟩
    · exact ⟨65, by simp [h], Or.inr rfl⟩
  have hpar : (e - (s : Int)) % 2 = 0 := by
    by_cases h : (e - 64) % 2 = 0
    · simp only [h, if_true] at hs
      subst hs
      exact h
    · simp only [h, if_false] at hs
      subst hs
      push_cast
      omega
  simp only [hs]
  obtain ⟨k, hk⟩ : ∃ k : Int, e - (s : Int) = 2 * k := ⟨(e - (s : Int)) / 2, by omega⟩
  have hk2 : (e - (s : Int)) / 2 = k := by omega
  rw [hk2]
  set X := m <<< s with hX
  obtain ⟨hlo, hhi⟩ := natSqrt_spec X
  set root := natSqrt X with hroot
  have hX64 : 2 ^ 64 ≤ X := by
    rw [hX, Nat.shiftLeft_eq]
    have h1 : 1 ≤ m := Nat.pos_of_ne_zero hm
    have h2 : 2 ^ 64 ≤ 2 ^ s := Nat.pow_le_pow_right (by norm_num) (by omega)
    calc 2 ^ 64 = 1 * 2 ^ 64 := by ring
      _ ≤ m * 2 ^ s := Nat.mul_le_mul h1 h2
  have hroot32 : 2 ^ 32 ≤ root := by
    by_contra hc
    push_neg at hc
    have : (root + 1) * (root + 1) ≤ 2 ^ 32 * 2 ^ 32 := Nat.mul_le_mul hc hc
    have : (2 : Nat) ^ 32 * 2 ^ 32 = 2 ^ 64 := by norm_num
    omega
  have hpk : (0 : ℝ) < (2 : ℝ) ^ k := by positivity
  have hXR : (m : ℝ) * (2 : ℝ) ^ e = (X : ℝ) * ((2 : ℝ) ^ k) ^ 2 := by
    rw [hX, Nat.shiftLeft_eq]
    push_cast
    have he : e = (s : Int) + (k + k) := by omega
    rw [he, zpow_add₀ h2, zpow_add₀ h2, zpow_natCast]
    ring
  have hsq : Real.sqrt ((m : ℝ) * (2 : ℝ) ^ e) = Real.sqrt X * (2 : ℝ) ^ k := by
    rw [hXR, Real.sqrt_mul (by positivity), Real.sqrt_sq hpk.le]
  rw [hsq]
  have hrootR : (0 : ℝ) ≤ root := by positivity
  have hloR : (root : ℝ) ≤ Real.sqrt X := by
    apply Real.le_sqrt_of_sq_le
    have : ((root * root : Nat) : ℝ) ≤ X := by exact_mod_cast hlo
    push_cast at this
    nlinarith
  have hhiR : Real.sqrt X < (root : ℝ) + 1 := by
    rw [Real.sqrt_lt' (by positivity)]
    have : ((X : Nat) : ℝ) < (((root + 1) * (root + 1) : Nat) : ℝ) := by exact_mod_cast hhi
    push_cast at this
    nlinarith
  refine ⟨by omega, mul_le_mul_of_nonneg_right hloR hpk.le,
    mul_lt_mul_of_pos_right hhiR hpk, ?_, ?_⟩
  · intro hst
    simp only [ne_eq, decide_not, Bool.not_eq_eq_eq_not, Bool.not_false, decide_eq_true_eq] at hst
    congr 1
    have : (X : ℝ) = (root : ℝ) ^ 2 := by
      have : ((root * root : Nat) : ℝ) = X := by exact_mod_cast hst
      push_cast at this
      rw [← this]; ring
    rw [this, Real.sqrt_sq hrootR]
  · intro hst
    simp only [ne_eq, decide_not, Bool.not_eq_eq_eq_not, Bool.not_true, decide_eq_false_iff_not] at hst
    have hlt : root * root < X := lt_of_le_of_ne hlo hst
    constructor
    · apply mul_lt_mul_of_pos_right _ hpk
      rw [Real.lt_sqrt hrootR]
      have : ((root * root : Nat) : ℝ) < X := by exact_mod_cast hlt
      push_cast at this
      nlinarith
    · by_contra hc
      push_neg at hc
      have h1 := lt_two_pow_bitLen root
      have : 2 ^ bitLen root ≤ 2 ^ 24 := Nat.pow_le_pow_right (by norm_num) hc
      have : (2 : Nat) ^ 24 < 2 ^ 32 := by norm_num
      omega

/-- Division by a positive finite value is antitone in the divisor. -/
theorem div_anti (c x1 x2 : F32) (vc v1 v2 : ℝ) (hc : PosVal c vc) (h1 : PosVal x1 v1)
    (h2 : PosVal x2 v2) (hv : v1 ≤ v2) (hlo : (2 : ℝ) ^ (-120 : Int) ≤ vc / v2)
    (hhi : vc / v1 ≤ (2 : ℝ) ^ (120 : Int)) :
    ∃ w1 w2 : ℝ, PosVal (div c x1) w1 ∧ PosVal (div c x2) w2 ∧ w2 ≤ w1 := by
  have hv1 := h1.pos
  have hvc := hc.pos
  obtain ⟨Mc, Ec, rfl, hMc, _, rfl⟩ := hc
  obtain ⟨M1, E1, rfl, hM1, hM1lt, rfl⟩ := h1
  obtain ⟨M2, E2, rfl, hM2, hM2lt, rfl⟩ := h2
  rw [div_fin_fin Mc M1 Ec E1 hM1, div_fin_fin Mc M2 Ec E2 hM2]
  obtain ⟨w2, w1, hw2, hw1, hle⟩ := roundFin_mono_val _ _ _ _ _ _ _ _
    (exact_div Mc M2 Ec E2 hMc hM2 hM2lt) (exact_div Mc M1 Ec E1 hMc hM1 hM1lt) hlo hhi
    (div_le_div_of_nonneg_left hvc.le hv1 hv)
  exact ⟨w1, w2, hw1, hw2, hle⟩

/-- The square root is monotone on positive finite values. -/
theorem sqrt_mono (x1 x2 : F32) (v1 v2 : ℝ) (h1 : PosVal x1 v1) (h2 : PosVal x2 v2)
    (hv : v1 ≤ v2) (hlo : (2 : ℝ) ^ (-120 : Int) ≤ Real.sqrt v1)
    (hhi : Real.sqrt v2 ≤ (2 : ℝ) ^ (120 : Int)) :
    ∃ w1 w2 : ℝ, PosVal (sqrt x1) w1 ∧ PosVal (sqrt x2) w2 ∧ w1 ≤ w2 := by
  obtain ⟨M1, E1, rfl, hM1, _, rfl⟩ := h1
  obtain ⟨M2, E2, rfl, hM2, _, rfl⟩ := h2
  rw [sqrt_fin M1 E1 hM1, sqrt_fin M2 E2 hM2]
  exact roundFin_mono_val _ _ _ _ _ _ _ _ (exact_sqrt M1 E1 hM1) (exact_sqrt M2 E2 hM2) hlo hhi
    (Real.sqrt_le_sqrt hv)

theorem posVal_ofNat_pow24 : PosVal (ofNat 16777216) 16777216 :=
  ⟨8388608, 1, by decide, by norm_num, by norm_num, by norm_num⟩

theorem posVal_ofNat_pow64 : PosVal (ofNat 18446744073709551616) 18446744073709551616 :=
  ⟨8388608, 41, by decide, by norm_num, by norm_num, by norm_num⟩

theorem posVal_div_pow24 : PosVal (div (ofNat 16777216) (ofNat 16777216)) 1 :=
  ⟨8388608, -23, by decide, by norm_num, by norm_num, by norm_num⟩

theorem posVal_div_pow64 :
    PosVal (div (ofNat 16777216) (ofNat 18446744073709551616)) ((2 : ℝ) ^ (-40 : Int)) :=
  ⟨8388608, -63, by decide, by norm_num, by norm_num, by norm_num⟩

theorem posVal_threshold : PosVal threshold ((10737418 : ℝ) * (2 : ℝ) ^ (-30 : Int)) :=
  ⟨10737418, -30, rfl, by norm_num, by norm_num, rfl⟩

/-- The conversion of a length from `2^24` to `2^64` lies between `2^24` and `2^64`. -/
theorem posVal_ofNat_bounds (n : Nat) (hlo : 16777216 ≤ n) (hhi : n ≤ 18446744073709551616) :
    ∃ a : ℝ, PosVal (ofNat n) a ∧ 16777216 ≤ a ∧ a ≤ 18446744073709551616 := by
  obtain ⟨w1, a, hw1, ha, hle1⟩ := ofNat_mono 16777216 n (by norm_num) hlo hhi
  obtain ⟨a2, w2, ha2, hw2, hle2⟩ := ofNat_mono n 18446744073709551616 (by omega) hhi le_rfl
  rw [hw1.unique posVal_ofNat_pow24] at hle1
  rw [ha2.unique ha, hw2.unique posVal_ofNat_pow64] at hle2
  exact ⟨a, ha, hle1, hle2⟩

/-- The quotient of `2^24` by a value from `2^24` to `2^64` lies between `2^-40` and 1. -/
theorem posVal_div_bounds (x : F32) (a : ℝ) (hx : PosVal x a) (hlo : 16777216 ≤ a)
    (hhi : a ≤ 18446744073709551616) :
    ∃ d : ℝ, PosVal (div (ofNat 16777216) x) d ∧ (2 : ℝ) ^ (-40 : Int) ≤ d ∧ d ≤ 1 := by
  have hapos : (0 : ℝ) < a := by linarith
  have r1 : (2 : ℝ) ^ (-120 : Int) ≤ 16777216 / a := by
    rw [le_div_iff₀ hapos]
    have : (2 : ℝ) ^ (-120 : Int) * 18446744073709551616 ≤ 16777216 := by norm_num
    have h0 : (0 : ℝ) ≤ (2 : ℝ) ^ (-120 : Int) := by positivity
    nlinarith
  have r2 : 16777216 / a ≤ (2 : ℝ) ^ (120 : Int) := by
    rw [div_le_iff₀ hapos]
    have : (1 : ℝ) ≤ (2 : ℝ) ^ (120 : Int) := by norm_num
    nlinarith
  have r3 : (2 : ℝ) ^ (-120 : Int) ≤ 16777216 / 18446744073709551616 := by norm_num
  have r4 : (16777216 : ℝ) / 16777216 ≤ (2 : ℝ) ^ (120 : Int) := by norm_num
  obtain ⟨w1, d, hw1, hd, hle1⟩ := div_anti _ _ _ _ _ _ posVal_ofNat_pow24 hx posVal_ofNat_pow64
    hhi r3 r2
  obtain ⟨w2, d2, hw2, hd2, hle2⟩ := div_anti _ _ _ _ _ _ posVal_ofNat_pow24 posVal_ofNat_pow24 hx
    hlo r1 r4
  rw [hd.unique posVal_div_pow64, hw1.unique hd2] at hle1
  rw [hw2.unique posVal_div_pow24] at hle2
  exact ⟨d2, hd2, hle1, hle2⟩

/-- The energy `transcribe` computes once the sum has reached `2^24` does not
grow with the number of samples. -/
theorem energy_anti (n1 n2 : Nat) (h1 : 16777216 ≤ n1) (h12 : n1 ≤ n2)
    (h2 : n2 ≤ 18446744073709551616) :
    ∃ s1 s2 : ℝ, PosVal (sqrt (div (ofNat 16777216) (ofNat n1))) s1
      ∧ PosVal (sqrt (div (ofNat 16777216) (ofNat n2))) s2 ∧ s2 ≤ s1 := by
  obtain ⟨a1, ha1, ha1lo, ha1hi⟩ := posVal_ofNat_bounds n1 h1 (le_trans h12 h2)
  obtain ⟨a2, ha2, ha2lo, ha2hi⟩ := posVal_ofNat_bounds n2 (le_trans h1 h12) h2
  obtain ⟨b1, b2, hb1, hb2, hab⟩ := ofNat_mono n1 n2 (by omega) h12 h2
  rw [hb1.unique ha1, hb2.unique ha2] at hab
  obtain ⟨d1, hd1, hd1lo, hd1hi⟩ := posVal_div_bounds _ a1 ha1 ha1lo ha1hi
  obtain ⟨d2, hd2, hd2lo, hd2hi⟩ := posVal_div_bounds _ a2 ha2 ha2lo ha2hi
  have ha1pos : (0 : ℝ) < a1 := by linarith
  have ha2pos : (0 : ℝ) < a2 := by linarith
  have r1 : (2 : ℝ) ^ (-120 : Int) ≤ 16777216 / a2 := by
    rw [le_div_iff₀ ha2pos]
    have : (2 : ℝ) ^ (-120 : Int) * 18446744073709551616 ≤ 16777216 := by norm_num
    have h0 : (0 : ℝ) ≤ (2 : ℝ) ^ (-120 : Int) := by positivity
    nlinarith
  have r2 : 16777216 / a1 ≤ (2 : ℝ) ^ (120 : Int) := by
    rw [div_le_iff₀ ha1pos]
    have : (1 : ℝ) ≤ (2 : ℝ) ^ (120 : Int) := by norm_num
    nlinarith
  obtain ⟨e1, e2, he1, he2, hde⟩ := div_anti _ _ _ _ _ _ posVal_ofNat_pow24 ha1 ha2 hab r1 r2
  rw [he1.unique hd1, he2.unique hd2] at hde
  have q1 : (2 : ℝ) ^ (-120 : Int) ≤ Real.sqrt d2 := by
    apply Real.le_sqrt_of_sq_le
    have : ((2 : ℝ) ^ (-120 : Int)) ^ 2 ≤ (2 : ℝ) ^ (-40 : Int) := by norm_num
    linarith
  have q2 : Real.sqrt d1 ≤ (2 : ℝ) ^ (120 : Int) := by
    rw [Real.sqrt_le_left (by positivity)]
    have : (1 : ℝ) ≤ ((2 : ℝ) ^ (120 : Int)) ^ 2 := by norm_num
    linarith
  obtain ⟨s2, s1, hs2, hs1, hs⟩ := sqrt_mono _ _ d2 d1 hd2 hd1 hde q1 q2
  exact ⟨s1, s2, hs1, hs2, hs⟩

set_option maxRecDepth 4000 in
theorem gt_energy_last : gt (sqrt (div (ofNat 16777216) (ofNat 167772151807))) threshold = true := by
  decide

set_option maxRecDepth 4000 in
theorem gt_energy_first :
    gt (sqrt (div (ofNat 16777216) (ofNat 167772151808))) threshold = false := by
  decide

/-- Once the sum has reached `2^24`, the energy exceeds `0.01f` exactly below
`167772151808` samples. -/
theorem gt_energy_iff (n : Nat) (h1 : 16777216 ≤ n) (h2 : n ≤ 18446744073709551616) :
    gt (sqrt (div (ofNat 16777216) (ofNat n))) threshold = true ↔ n < 167772151808 := by
  constructor
  · intro hgt
    by_contra hge
    push_neg at hge
    obtain ⟨s1, s2, hs1, hs2, hle⟩ := energy_anti 167772151808 n (by norm_num) hge h2
    have hfirst := gt_energy_first
    have h3 : ¬ ((10737418 : ℝ) * (2 : ℝ) ^ (-30 : Int) < s1) := by
      rw [← gt_iff_of_posVal hs1 posVal_threshold, hfirst]
      simp
    have h4 := (gt_iff_of_posVal hs2 posVal_threshold).1 hgt
    exact h3 (lt_of_lt_of_le h4 hle)
  · intro hlt
    obtain ⟨s1, s2, hs1, hs2, hle⟩ := energy_anti n 167772151807 h1 (by omega) (by norm_num)
    have h3 := (gt_iff_of_posVal hs2 posVal_threshold).1 gt_energy_last
    exact (gt_iff_of_posVal hs1 posVal_threshold).2 (lt_of_lt_of_le h3 hle)

end F32

/-- On a Loaded handle, `n` samples `1.0f` (`n` a `size_t`) give the placeholder
exactly when `n` is below `167772151808`. -/
theorem WhisperModel.transcribe_ones_iff (m : WhisperModel) (n : Nat) (hm : m.isLoaded = true)
    (hn : n ≠ 0) (h64 : n ≤ 18446744073709551616) :
    (m.transcribe (List.replicate n F32.one)).1 = placeholder ↔ n < 167772151808 := by
  by_cases hsmall : n ≤ 16777216
  · have := WhisperModel.transcribe_ones_small m n hm hn hsmall
    constructor
    · intro _; omega
    · intro _; exact this
  · push_neg at hsmall
    rw [WhisperModel.transcribe_ones m n hm hn, min_eq_right hsmall.le,
      ← F32.gt_energy_iff n hsmall.le h64]
    constructor
    · intro h
      by_contra hc
      rw [if_neg hc] at h
      exact placeholder_ne_empty h.symm
    · intro h
      rw [if_pos h]

theorem meanSquare_rounding :
    meanSquare [roundingSample, F32.zero] = 230584316110009 / 2305843009213693952 := by
  simp only [meanSquare, roundingSample, F32.zero, F32.toRat, List.map, List.sum_cons,
    List.sum_nil, List.length]
  norm_num

/-- On `2^38` samples `1.0f`, more than `transcribeAudio` can pass, the `float`
sum has stopped growing at `2^24`, the energy is `2^-7`, which is below `0.01f`,
and `transcribe` returns the empty string: the clause on samples `1.0f` needs
its bound on the length. -/
theorem transcribe_ones_saturated :
    handleLoadedA.isLoaded = true
    ∧ (List.replicate saturatedLength F32.one).length = 274877906944
    ∧ (∀ x ∈ List.replicate saturatedLength F32.one, x = F32.one)
    ∧ (handleLoadedA.transcribe (List.replicate saturatedLength F32.one)).1 = ""
    ∧ (handleLoadedA.transcribe (List.replicate saturatedLength F32.one)).1 ≠ placeholder := by
  have hgt : F32.gt (F32.sqrt (F32.div (F32.ofNat (min saturatedLength 16777216))
      (F32.ofNat saturatedLength))) F32.threshold = false := by decide
  have hres : (handleLoadedA.transcribe (List.replicate saturatedLength F32.one)).1 = "" := by
    rw [WhisperModel.transcribe_ones handleLoadedA saturatedLength (by decide) (by decide), hgt]
    simp
  refine ⟨by decide, ?_, ?_, hres, ?_⟩
  · rw [List.length_replicate]; rfl
  · intro x hx
    exact List.eq_of_mem_replicate hx
  · rw [hres]
    exact fun h => placeholder_ne_empty h.symm

/-! ## The claims -/

/-- C1 (amended): on a Loaded handle and a non-empty sample sequence `s`,
`transcribe` returns the placeholder if the energy (the square root of the sum
of the squared samples divided by the length, in `float` arithmetic) exceeds
`0.01f`, and the empty string otherwise; no other string is returned.  A
non-empty sequence of zeros yields the empty string, and a non-empty sequence
of fewer than `167772151808` samples `1.0f` yields the placeholder. -/
theorem transcribe_energy_rule (m : WhisperModel) (s : List F32)
    (hm : m.isLoaded = true) (hs : s ≠ []) :
    (m.transcribe s).1
        = (if F32.gt (rmsEnergy s) F32.threshold = true then placeholder else "")
    ∧ ((m.transcribe s).1 = placeholder ∨ (m.transcribe s).1 = "")
    ∧ ((∀ x ∈ s, x = F32.zero ∨ x = F32.negZero) → (m.transcribe s).1 = "")
    ∧ ((∀ x ∈ s, x = F32.one) → s.length < 167772151808
        → (m.transcribe s).1 = placeholder) := by
  refine ⟨WhisperModel.transcribe_loaded m s hm hs, (WhisperModel.transcribe_range m s).symm,
    WhisperModel.transcribe_zeros m s hm hs, ?_⟩
  intro hall hlen
  have hrep : s = List.replicate s.length F32.one := List.eq_replicate_of_mem hall
  have hn : s.length ≠ 0 := fun h0 => hs (List.length_eq_zero.1 h0)
  rw [hrep]
  exact (WhisperModel.transcribe_ones_iff m s.length hm hn (by omega)).2 hlen

/-- Witness of C1: one sample `1.0f` on the handle that loaded `"A"`. -/
theorem transcribe_energy_rule_witness :
    handleLoadedA.isLoaded = true ∧ [F32.one] ≠ [] ∧
    ((handleLoadedA.transcribe [F32.one]).1
        = (if F32.gt (rmsEnergy [F32.one]) F32.threshold = true then placeholder else "")
    ∧ ((handleLoadedA.transcribe [F32.one]).1 = placeholder
        ∨ (handleLoadedA.transcribe [F32.one]).1 = "")
    ∧ ((∀ x ∈ [F32.one], x = F32.zero ∨ x = F32.negZero)
        → (handleLoadedA.transcribe [F32.one]).1 = "")
    ∧ ((∀ x ∈ [F32.one], x = F32.one) → [F32.one].length < 167772151808
        → (handleLoadedA.transcribe [F32.one]).1 = placeholder)) :=
  ⟨by decide, by simp, transcribe_energy_rule handleLoadedA [F32.one] (by decide) (by simp)⟩

set_option maxRecDepth 4000 in
/-- Counterexample to C1 as stated: the two samples `15185003 * 2^-30` and
`0.0f` on a Loaded handle.  In exact arithmetic the energy
`sqrt((x * x + 0 * 0) / 2)` exceeds `0.01`; in `float` arithmetic it is exactly
`0.01f`, which is not above the threshold, and `transcribe` returns the empty
string, not the placeholder. -/
theorem transcribe_rounding_counterexample :
    handleLoadedA.isLoaded = true
    ∧ [roundingSample, F32.zero] ≠ []
    ∧ Real.sqrt ((meanSquare [roundingSample, F32.zero] : ℚ) : ℝ) > 1 / 100
    ∧ rmsEnergy [roundingSample, F32.zero] = F32.threshold
    ∧ (handleLoadedA.transcribe [roundingSample, F32.zero]).1 = ""
    ∧ (handleLoadedA.transcribe [roundingSample, F32.zero]).1 ≠ placeholder := by
  have hres : (handleLoadedA.transcribe [roundingSample, F32.zero]).1 = "" := by decide
  refine ⟨by decide, by simp, ?_, by decide, hres, ?_⟩
  · rw [meanSquare_rounding, gt_iff_lt, Real.lt_sqrt (by norm_num)]
    push_cast
    norm_num
  · rw [hres]
    exact fun h => placeholder_ne_empty h.symm

/-- C2: `transcribe` returns the empty string when the handle is not Loaded,
whatever the samples, and when the samples are empty; `transcribeAudio` returns
the empty string when `g_whisperModel` is null, whatever its arguments, and
when the singleton exists, is not Loaded, and the length is within the array. -/
theorem transcribe_precondition_violated (m : WhisperModel) (s : List F32)
    (h : m.isLoaded = false ∨ s = []) :
    (m.transcribe s).1 = ""
    ∧ (∀ (audioArray : Option (List F32)) (data_length : Int),
        transcribeAudio none audioArray data_length = Outcome.returns "" none)
    ∧ (∀ (elems : List F32) (n : Int), m.isLoaded = false → 0 ≤ n →
        n ≤ (elems.length : Int) →
        transcribeAudio (some m) (some elems) n = Outcome.returns "" (some m)) := by
  refine ⟨?_, fun _ _ => rfl, ?_⟩
  · rcases h with h | h
    · exact WhisperModel.transcribe_unloaded m s h
    · subst h
      exact WhisperModel.transcribe_nil m
  · intro elems n hu h0 hn
    rw [transcribeAudio_returns_in_range m elems n h0 hn, WhisperModel.transcribe_unloaded m _ hu]

/-- Witness of C2: a fresh handle, never loaded, and one sample `1.0f`. -/
theorem transcribe_precondition_violated_witness :
    (WhisperModel.new.isLoaded = false ∨ [F32.one] = [])
    ∧ (WhisperModel.new.transcribe [F32.one]).1 = "" :=
  ⟨Or.inl rfl, (transcribe_precondition_violated WhisperModel.new [F32.one] (Or.inl rfl)).1⟩

/-- C3 (amended): when the file at `path` cannot be opened, `loadModel`
returns false and leaves the loaded flag as it was, so that a handle that was
Unloaded remains Unloaded; the first `loadModel` call of the binding then leaves
an Unloaded singleton. -/
theorem loadModel_failure_keeps_flag (fs : FileSystem) (m : WhisperModel) (path : String)
    (h : fs path = none) :
    (m.loadModel fs path).1 = false
    ∧ (m.loadModel fs path).2.isLoaded = m.isLoaded
    ∧ (m.isLoaded = false → (m.loadModel fs path).2.isLoaded = false)
    ∧ loadModel fs none path
        = (false, some { modelPath := path, isLoaded := false, audioBuffer := [] })
    ∧ (loadModel fs (some m) path).1 = false
    ∧ (∃ m2, (loadModel fs (some m) path).2 = some m2 ∧ m2.isLoaded = m.isLoaded) := by
  simp [WhisperModel.loadModel, loadModel, WhisperModel.new, h]

/-- Witness of C3: `"B"` cannot be opened under `fsExample`. -/
theorem loadModel_failure_keeps_flag_witness :
    fsExample "B" = none
    ∧ (WhisperModel.new.loadModel fsExample "B").1 = false
    ∧ (WhisperModel.new.loadModel fsExample "B").2.isLoaded = false :=
  ⟨by decide,
   (loadModel_failure_keeps_flag fsExample WhisperModel.new "B" (by decide)).1,
   (loadModel_failure_keeps_flag fsExample WhisperModel.new "B" (by decide)).2.2.1 rfl⟩

/-- Counterexample to C3 as stated: on the handle that loaded `"A"`, a
`loadModel` of `"B"`, which cannot be opened, returns false and the handle is
still Loaded, not Unloaded. -/
theorem loadModel_failure_on_loaded_counterexample :
    Reachable handleLoadedA
    ∧ fsExample "B" = none
    ∧ (handleLoadedA.loadModel fsExample "B").1 = false
    ∧ (handleLoadedA.loadModel fsExample "B").2.isLoaded = true
    ∧ (handleLoadedA.loadModel fsExample "B").2.isLoaded ≠ false :=
  ⟨Reachable.load fsExample WhisperModel.new "A" Reachable.new, by decide, by decide,
   by decide, by decide⟩

/-- C4: when the file at `path` can be opened, whatever its size, `loadModel`
returns true, the handle is Loaded afterwards and stores `path`, whatever it
stored before; the same holds through the `loadModel` entry point, with or
without a singleton. -/
theorem loadModel_success (fs : FileSystem) (m : WhisperModel) (g : Option WhisperModel)
    (path : String) (size : Nat) (h : fs path = some size) :
    m.loadModel fs path = (true, { m with modelPath := path, isLoaded := true })
    ∧ (m.loadModel fs path).1 = true
    ∧ (m.loadModel fs path).2.isLoaded = true
    ∧ (m.loadModel fs path).2.modelPath = path
    ∧ (loadModel fs g path).1 = true
    ∧ (∃ m2, (loadModel fs g path).2 = some m2 ∧ m2.isLoaded = true
        ∧ m2.modelPath = path) := by
  cases g <;> simp [WhisperModel.loadModel, loadModel, h]

/-- Witness of C4: the empty file `"A"` loaded over the handle that holds `"C"`. -/
theorem loadModel_success_witness :
    fsExample "A" = some 0
    ∧ (WhisperModel.mk "C" true []).loadModel fsExample "A"
        = (true, WhisperModel.mk "A" true []) :=
  ⟨by decide,
   (loadModel_success fsExample (WhisperModel.mk "C" true []) none "A" 0 (by decide)).1⟩

/-- C5: after `release`, `transcribe` returns the empty string, whatever the
state before and whatever the samples; after the `releaseModel` entry point,
`transcribeAudio` returns the empty string whatever its arguments. -/
theorem release_then_transcribe (m : WhisperModel) (g : Option WhisperModel) (s : List F32)
    (audioArray : Option (List F32)) (data_length : Int) :
    (m.release.transcribe s).1 = ""
    ∧ releaseModel g = none
    ∧ transcribeAudio (releaseModel g) audioArray data_length = Outcome.returns "" none := by
  have hg : releaseModel g = none := by cases g <;> rfl
  refine ⟨WhisperModel.transcribe_unloaded _ s rfl, hg, ?_⟩
  rw [hg]
  rfl

/-- C6: `release` twice leaves the state `release` once leaves; on a reachable
handle that is not Loaded, `release` changes nothing; `releaseModel` without a
singleton changes nothing, and twice it leaves what once leaves. -/
theorem release_idempotent (m : WhisperModel) (g : Option WhisperModel) (hR : Reachable m) :
    m.release.release = m.release
    ∧ (m.isLoaded = false → m.release = m)
    ∧ releaseModel none = none
    ∧ releaseModel (releaseModel g) = releaseModel g := by
  refine ⟨rfl, ?_, rfl, by cases g <;> rfl⟩
  intro hu
  have hb := hR.audioBuffer_eq_nil
  cases m
  simp_all [WhisperModel.release]

/-- Witness of C6: the fresh handle is reachable. -/
theorem release_idempotent_witness :
    Reachable WhisperModel.new
    ∧ WhisperModel.new.release.release = WhisperModel.new.release
    ∧ WhisperModel.new.release = WhisperModel.new :=
  ⟨Reachable.new,
   (release_idempotent WhisperModel.new none Reachable.new).1,
   (release_idempotent WhisperModel.new none Reachable.new).2.1 rfl⟩

/-- C7: `transcribe` leaves the object as it was (loaded flag, stored path and
audio buffer), and called again on the same samples it returns the same string;
`transcribeAudio`, with a length within the array or with a null array, leaves
`g_whisperModel` as it was. -/
theorem transcribe_frame (m : WhisperModel) (s : List F32) (g : Option WhisperModel)
    (elems : List F32) (n : Int) (h0 : 0 ≤ n) (hn : n ≤ (elems.length : Int)) :
    (m.transcribe s).2 = m
    ∧ (m.transcribe s).2.isLoaded = m.isLoaded
    ∧ (m.transcribe s).2.modelPath = m.modelPath
    ∧ (m.transcribe s).2.audioBuffer = m.audioBuffer
    ∧ ((m.transcribe s).2.transcribe s).1 = (m.transcribe s).1
    ∧ (∃ r, transcribeAudio g (some elems) n = Outcome.returns r g)
    ∧ transcribeAudio g none n = Outcome.returns "" g := by
  have h := WhisperModel.transcribe_snd m s
  refine ⟨h, by rw [h], by rw [h], by rw [h], by rw [h], ?_, by cases g <;> rfl⟩
  cases g with
  | none => exact ⟨"", rfl⟩
  | some m2 => exact ⟨_, transcribeAudio_returns_in_range m2 elems n h0 hn⟩

/-- Witness of C7: the handle that loaded `"A"`, two samples, length 1. -/
theorem transcribe_frame_witness :
    (0 : Int) ≤ 1 ∧ (1 : Int) ≤ (([F32.one, F32.zero] : List F32).length : Int)
    ∧ (handleLoadedA.transcribe [F32.one]).2 = handleLoadedA
    ∧ ∃ r, transcribeAudio (some handleLoadedA) (some [F32.one, F32.zero]) 1
        = Outcome.returns r (some handleLoadedA) :=
  ⟨by decide, by decide,
   (transcribe_frame handleLoadedA [F32.one] (some handleLoadedA) [F32.one, F32.zero] 1
      (by decide) (by decide)).1,
   (transcribe_frame handleLoadedA [F32.one] (some handleLoadedA) [F32.one, F32.zero] 1
      (by decide) (by decide)).2.2.2.2.2.1⟩

/-- C10: on a Loaded handle (and on any other), with a length `n` from 0 to
the number of elements, `transcribeAudio` returns what `transcribe` returns on
the first `n` elements: two arrays with the same first `n` elements give the
same result, and the length 0 gives the empty string whatever the array holds. -/
theorem transcribeAudio_uses_length (m : WhisperModel) (a b : List F32) (n : Int)
    (h0 : 0 ≤ n) (hna : n ≤ (a.length : Int))
    (hnb : n ≤ (b.length : Int)) (hab : a.take n.toNat = b.take n.toNat) :
    transcribeAudio (some m) (some a) n
        = Outcome.returns (m.transcribe (a.take n.toNat)).1 (some m)
    ∧ transcribeAudio (some m) (some b) n = transcribeAudio (some m) (some a) n
    ∧ transcribeAudio (some m) (some a) 0 = Outcome.returns "" (some m) := by
  refine ⟨transcribeAudio_returns_in_range m a n h0 hna, ?_, ?_⟩
  · rw [transcribeAudio_returns_in_range m a n h0 hna,
      transcribeAudio_returns_in_range m b n h0 hnb, hab]
  · rw [transcribeAudio_returns_in_range m a 0 le_rfl (by positivity)]
    simp [WhisperModel.transcribe_nil]

set_option maxRecDepth 4000 in
/-- Witness of C10: the arrays `[0, 1, 1]` and `[0]` read with length 1. -/
theorem transcribeAudio_uses_length_witness :
    handleLoadedA.isLoaded = true
    ∧ (0 : Int) ≤ 1
    ∧ (1 : Int) ≤ (([F32.zero, F32.one, F32.one] : List F32).length : Int)
    ∧ (1 : Int) ≤ (([F32.zero] : List F32).length : Int)
    ∧ ([F32.zero, F32.one, F32.one] : List F32).take (1 : Int).toNat
        = ([F32.zero] : List F32).take (1 : Int).toNat
    ∧ transcribeAudio (some handleLoadedA) (some [F32.zero, F32.one, F32.one]) 1
        = Outcome.returns (handleLoadedA.transcribe [F32.zero]).1 (some handleLoadedA)
    ∧ transcribeAudio (some handleLoadedA) (some [F32.zero]) 1
        = transcribeAudio (some handleLoadedA) (some [F32.zero, F32.one, F32.one]) 1
    ∧ transcribeAudio (some handleLoadedA) (some [F32.zero, F32.one, F32.one]) 0
        = Outcome.returns "" (some handleLoadedA) :=
  ⟨by decide, by decide, by decide, by decide, by decide,
   transcribeAudio_uses_length handleLoadedA [F32.zero, F32.one, F32.one] [F32.zero] 1
      (by decide) (by decide) (by decide) (by decide)⟩
